import Mathlib

/-!
Verification of the DeepTracking-LlamaIndex core against its specification.

The Rust source is shallowly embedded: pure functions become Lean functions,
filesystem-reading code takes an explicit filesystem value, `HashMap`s become
association lists (insert replaces an existing key, otherwise appends),
`DateTime<Utc>` timestamps become `Nat`, `f32` vector components become `ℚ`,
and fallible code returns `Except`/`Option`.
-/

namespace DeepTracking

/-- `DependencyType` from src/analyzers/mod.rs. -/
inductive DependencyType where
  | Import
  | FunctionCall
  | Inheritance
  | Usage
  | FunctionDefinition
  | TypeUsage
deriving DecidableEq, Repr

/-- `DependencyMetadata` from src/analyzers/mod.rs.  The `relationships` and
`context : Option<serde_json::Value>` fields are opaque payloads never
inspected by the verified operations and are omitted. -/
structure DependencyMetadata where
  line_number : Option Nat
  description : Option String
deriving DecidableEq, Repr

/-- `Dependency` from src/analyzers/mod.rs; `PathBuf` becomes `String`. -/
structure Dependency where
  source : String
  target : String
  dependency_type : DependencyType
  metadata : DependencyMetadata
deriving DecidableEq, Repr

/-- `FileState` from src/analyzers/manager.rs. -/
structure FileState where
  last_modified : Nat
  dependencies : List Dependency
  hash : String
deriving DecidableEq, Repr

/-- `ProjectState` from src/analyzers/manager.rs; the `HashMap<PathBuf, FileState>`
is an association list keyed by path. -/
structure ProjectState where
  last_analysis : Nat
  analyzed_files : List (String × FileState)
deriving DecidableEq, Repr

/-- A file of the walked project tree: path, modification time and content.
`analyze_project` walks these in list order (the WalkDir order). -/
structure MFile where
  path : String
  mtime : Nat
  content : String
deriving DecidableEq, Repr

/-- The manager's environment: `calculate_file_hash` (md5 over the file bytes)
becomes an abstract deterministic hash over the content, and
`get_analyzer_for_file` plus `CodeAnalyzer::analyze` become a per-path analyzer
lookup whose analyzer maps the file content to dependencies or an error string
(the Rust analyzer reads the file at the given path; here the walked file's
content is passed explicitly). -/
structure AnalyzerEnv where
  hashFn : String → String
  getAnalyzer : String → Option (String → Except String (List Dependency))

/-- `HashMap::get` on `analyzed_files`. -/
def lookupFile (st : ProjectState) (p : String) : Option FileState :=
  (st.analyzed_files.find? (fun e => decide (e.1 = p))).map (fun e => e.2)

/-- `HashMap::insert` on `analyzed_files`: replace the existing entry for the
key, otherwise append. -/
def insertFile (files : List (String × FileState)) (p : String) (s : FileState) :
    List (String × FileState) :=
  if files.any (fun e => decide (e.1 = p)) then
    files.map (fun e => if e.1 = p then (p, s) else e)
  else files ++ [(p, s)]

/-- `needs_analysis` from src/analyzers/manager.rs lines 191-202 (identical in
src/analysis/analyzers.rs lines 140-150): true when there is no prior
`FileState`, or the modification time is strictly newer than the stored one,
or the freshly computed content hash differs from the stored one. -/
def needs_analysis (env : AnalyzerEnv) (st : ProjectState) (f : MFile) : Bool :=
  match lookupFile st f.path with
  | some state => decide (f.mtime > state.last_modified) || decide (env.hashFn f.content ≠ state.hash)
  | none => true

/-- `update_file_state` from src/analyzers/manager.rs lines 204-218. -/
def update_file_state (env : AnalyzerEnv) (st : ProjectState) (f : MFile)
    (deps : List Dependency) : ProjectState :=
  { st with analyzed_files :=
      insertFile st.analyzed_files f.path ⟨f.mtime, deps, env.hashFn f.content⟩ }

/-- The `retain` on `analyzed_files` at the end of `analyze_project`
(deletion detection): keep exactly the entries whose path was observed. -/
def retainCurrent (st : ProjectState) (current : List String) : ProjectState :=
  { st with analyzed_files := st.analyzed_files.filter (fun e => decide (e.1 ∈ current)) }

/-- One iteration of the per-file loop of `analyze_project` in
src/analyzers/manager.rs lines 104-144: if an analyzer is registered for the
file and the file needs analysis, analyze it (`?` propagates the error),
record the new `FileState` and extend the output; otherwise contribute
nothing (this version has no else-branch that would reuse cached
dependencies).  The `FileEntry` tree building is omitted: it does not bear on
the dependency list or the project state. -/
def stepMgr (env : AnalyzerEnv) (acc : List Dependency × ProjectState) (f : MFile) :
    Except String (List Dependency × ProjectState) :=
  match env.getAnalyzer f.path with
  | some analyzeFile =>
      if needs_analysis env acc.2 f then
        match analyzeFile f.content with
        | .ok deps => .ok (acc.1 ++ deps, update_file_state env acc.2 f deps)
        | .error e => .error e
      else .ok acc
  | none => .ok acc

/-- `analyze_project` from src/analyzers/manager.rs lines 89-158: process each
walked file, then prune `analyzed_files` to the observed files.  This version
does not persist state (no `save_state` call). -/
def analyzeProjectMgr (env : AnalyzerEnv) (fs : List MFile) (st : ProjectState) :
    Except String (List Dependency × ProjectState) :=
  (fs.foldlM (stepMgr env) ([], st)).map
    (fun r => (r.1, retainCurrent r.2 (fs.map (fun f => f.path))))

/-- One iteration of the per-file loop of `analyze_project` in
src/analysis/analyzers.rs lines 104-129: same as `stepMgr`, but when the file
does not need analysis the cached `FileState.dependencies` are appended to the
output. -/
def stepAna (env : AnalyzerEnv) (acc : List Dependency × ProjectState) (f : MFile) :
    Except String (List Dependency × ProjectState) :=
  match env.getAnalyzer f.path with
  | some analyzeFile =>
      if needs_analysis env acc.2 f then
        match analyzeFile f.content with
        | .ok deps => .ok (acc.1 ++ deps, update_file_state env acc.2 f deps)
        | .error e => .error e
      else
        match lookupFile acc.2 f.path with
        | some state => .ok (acc.1 ++ state.dependencies, acc.2)
        | none => .ok acc
  | none => .ok acc

/-- `save_state` from src/analysis/analyzers.rs lines 198-205: refresh the
`last_analysis` timestamp (the serialization to disk is outside the model). -/
def saveState (now : Nat) (st : ProjectState) : ProjectState :=
  { st with last_analysis := now }

/-- `analyze_project` from src/analysis/analyzers.rs lines 99-138: per-file
loop, prune deleted files, persist state. -/
def analyzeProjectAna (env : AnalyzerEnv) (now : Nat) (fs : List MFile) (st : ProjectState) :
    Except String (List Dependency × ProjectState) :=
  (fs.foldlM (stepAna env) ([], st)).map
    (fun r => (r.1, saveState now (retainCurrent r.2 (fs.map (fun f => f.path)))))

/-- C3: for every tracked file, `needs_analysis` is true iff there is no prior
`FileState`, or the mtime is strictly newer than the stored one, or the fresh
content hash differs from the stored one; in particular a newer mtime with
unchanged content triggers re-analysis, and a changed hash triggers
re-analysis regardless of mtime (freshness is an OR over mtime and hash). -/
theorem needs_analysis_spec (env : AnalyzerEnv) (st : ProjectState) (f : MFile) :
    (needs_analysis env st f = true ↔
      lookupFile st f.path = none ∨
      (∃ s, lookupFile st f.path = some s ∧
        (f.mtime > s.last_modified ∨ env.hashFn f.content ≠ s.hash))) ∧
    (∀ s, lookupFile st f.path = some s → s.hash = env.hashFn f.content →
      f.mtime > s.last_modified → needs_analysis env st f = true) ∧
    (∀ s, lookupFile st f.path = some s → env.hashFn f.content ≠ s.hash →
      needs_analysis env st f = true) := by
  refine ⟨?_, ?_, ?_⟩
  · unfold needs_analysis
    cases h : lookupFile st f.path with
    | none => simp
    | some s => simp [h]
  · intro s hs _ hm
    unfold needs_analysis
    rw [hs]
    simp [hm]
  · intro s hs hh
    unfold needs_analysis
    rw [hs]
    simp [hh]

/-- Witness for C3 at a concrete state: entry with matching hash but older
stored mtime forces re-analysis. -/
theorem needs_analysis_spec_witness :
    needs_analysis ⟨fun c => c, fun _ => none⟩
      ⟨0, [("a.rs", ⟨1, [], "x"⟩)]⟩ ⟨"a.rs", 2, "x"⟩ = true :=
  (needs_analysis_spec ⟨fun c => c, fun _ => none⟩
      ⟨0, [("a.rs", ⟨1, [], "x"⟩)]⟩ ⟨"a.rs", 2, "x"⟩).2.1
    ⟨1, [], "x"⟩ (by decide) (by decide) (by decide)

/-- Concrete dependency fact used to exercise the analysis layer. -/
def depC1 : Dependency := ⟨"a.rs", "b", .Import, ⟨some 0, none⟩⟩

/-- Environment with an identity content hash and a single analyzer that
recognizes `a.rs` and reports one import dependency. -/
def envC1 : AnalyzerEnv :=
  ⟨fun c => c, fun p => if p == "a.rs" then some (fun _ => .ok [depC1]) else none⟩

/-- The walked file for the C1 scenario. -/
def fileC1 : MFile := ⟨"a.rs", 1, "use b;"⟩

/-- The project state after the first run of the C1 scenario. -/
def stC1 : ProjectState := ⟨0, [("a.rs", ⟨1, [depC1], "use b;"⟩)]⟩

/-- C1: evaluation of `analyze_project` (src/analyzers/manager.rs, the
implementation used by the CLI and the bridge) at a one-file project with no
filesystem change between runs: the first run returns the file's dependencies
and records its `FileState`; the second run leaves `ProjectState` unchanged
but returns the empty dependency list, because the `needs_analysis == false`
path has no else-branch that would reuse the cached
`FileState.dependencies` — contradicting the claimed idempotence. -/
theorem analyzeProjectMgr_second_run_empty :
    analyzeProjectMgr envC1 [fileC1] ⟨0, []⟩ = .ok ([depC1], stC1) ∧
    analyzeProjectMgr envC1 [fileC1] stC1 = .ok ([], stC1) := ⟨rfl, rfl⟩

/-- Environment for C2: the analyzer fails on `bad.rs` and succeeds on
`good.rs`. -/
def envC2 : AnalyzerEnv :=
  ⟨fun c => c, fun p =>
    if p == "bad.rs" then some (fun _ => .error "analysis failed")
    else if p == "good.rs" then
      some (fun _ => .ok [⟨"good.rs", "t", .Import, ⟨none, none⟩⟩])
    else none⟩

/-- C2 counterexample: with two files where analysis of the first fails, both
`analyze_project` implementations return the error for the whole run — the
walk does not continue and no results are returned for the second file,
refuting the claim that a per-file analyzer error is recorded and the run
continues. -/
theorem analyze_project_abort_counterexample :
    analyzeProjectMgr envC2 [⟨"bad.rs", 1, "x"⟩, ⟨"good.rs", 1, "y"⟩] ⟨0, []⟩
      = .error "analysis failed" ∧
    analyzeProjectAna envC2 5 [⟨"bad.rs", 1, "x"⟩, ⟨"good.rs", 1, "y"⟩] ⟨0, []⟩
      = .error "analysis failed" := ⟨rfl, rfl⟩

theorem find?_map_keep (files : List (String × FileState)) (fp p : String) (s : FileState)
    (h : fp ≠ p) :
    (files.map (fun e => if e.1 = fp then (fp, s) else e)).find? (fun e => decide (e.1 = p))
      = files.find? (fun e => decide (e.1 = p)) := by
  rw [List.find?_map]
  have hpred : ((fun e => decide (e.1 = p)) ∘ fun e => if e.1 = fp then (fp, s) else e)
      = fun e : String × FileState => decide (e.1 = p) := by
    funext e
    by_cases hc : e.1 = fp
    · simp [hc]
    · simp [hc]
  rw [hpred]
  cases hf : files.find? (fun e => decide (e.1 = p)) with
  | none => simp
  | some e =>
    have hp := List.find?_some hf
    have he : e.1 = p := by simpa using hp
    have hne : ¬ e.1 = fp := by
      intro hh
      exact h (by rw [← hh, he])
    simp [hne]

theorem find?_append_single (files : List (String × FileState)) (fp p : String) (s : FileState)
    (h : fp ≠ p) :
    (files ++ [(fp, s)]).find? (fun e => decide (e.1 = p))
      = files.find? (fun e => decide (e.1 = p)) := by
  rw [List.find?_append]
  have hnone : [(fp, s)].find? (fun e => decide (e.1 = p)) = none := by simp [h]
  rw [hnone, Option.or_none]

/-- `update_file_state` only touches the entry of the updated file: lookups at
other paths are unchanged. -/
theorem lookupFile_update_ne (env : AnalyzerEnv) (st : ProjectState) (f : MFile)
    (deps : List Dependency) (p : String) (h : f.path ≠ p) :
    lookupFile (update_file_state env st f deps) p = lookupFile st p := by
  unfold lookupFile update_file_state insertFile
  by_cases ha : (st.analyzed_files.any (fun e => decide (e.1 = f.path))) = true
  · simp only [ha, if_true]
    rw [find?_map_keep _ _ _ _ h]
  · simp only [ha, Bool.false_eq_true, if_false]
    rw [find?_append_single _ _ _ _ h]

/-- `needs_analysis` depends on the state only through the file's own entry. -/
theorem needs_analysis_congr (env : AnalyzerEnv) (st st' : ProjectState) (f : MFile)
    (h : lookupFile st f.path = lookupFile st' f.path) :
    needs_analysis env st f = needs_analysis env st' f := by
  unfold needs_analysis
  rw [h]

/-- A successful `stepMgr` on one file leaves lookups at other paths
unchanged. -/
theorem stepMgr_lookup_ne (env : AnalyzerEnv) (acc acc' : List Dependency × ProjectState)
    (f : MFile) (hstep : stepMgr env acc f = .ok acc') (p : String)
    (h : f.path ≠ p) :
    lookupFile acc'.2 p = lookupFile acc.2 p := by
  unfold stepMgr at hstep
  split at hstep
  · split at hstep
    · split at hstep
      · cases hstep
        exact lookupFile_update_ne env acc.2 f _ p h
      · cases hstep
    · cases hstep
      rfl
  · cases hstep
    rfl

/-- If some walked file has a registered analyzer, needs analysis, and its
analyzer fails, the per-file fold of `analyze_project`
(src/analyzers/manager.rs) short-circuits with an error. -/
theorem foldlM_stepMgr_error (env : AnalyzerEnv) (fs : List MFile) :
    ∀ acc : List Dependency × ProjectState,
      (fs.map (fun f => f.path)).Nodup →
      (∃ f ∈ fs, needs_analysis env acc.2 f = true ∧
         ∃ a, env.getAnalyzer f.path = some a ∧ ∃ e, a f.content = .error e) →
      ∃ e, fs.foldlM (stepMgr env) acc = .error e := by
  induction fs with
  | nil =>
    intro acc _ hex
    exact absurd hex (by simp)
  | cons f rest ih =>
    intro acc hnd hex
    obtain ⟨g, hg, hneed, a, ha, e, he⟩ := hex
    rcases List.mem_cons.mp hg with hgf | hgr
    · subst hgf
      have hstep : stepMgr env acc g = .error e := by
        simp [stepMgr, ha, hneed, he]
      refine ⟨e, ?_⟩
      rw [List.foldlM_cons, hstep]
      rfl
    · cases hstep : stepMgr env acc f with
      | error e' =>
        refine ⟨e', ?_⟩
        rw [List.foldlM_cons, hstep]
        rfl
      | ok acc' =>
        have hne : f.path ≠ g.path := by
          have hmem : g.path ∈ rest.map (fun f => f.path) := List.mem_map_of_mem _ hgr
          have hnotin : f.path ∉ rest.map (fun f => f.path) := by
            simp only [List.map_cons, List.nodup_cons] at hnd
            exact hnd.1
          exact fun hEq => hnotin (hEq ▸ hmem)
        have hlook := stepMgr_lookup_ne env acc acc' f hstep g.path hne
        have hneed' : needs_analysis env acc'.2 g = true := by
          rw [needs_analysis_congr env acc'.2 acc.2 g hlook]
          exact hneed
        obtain ⟨e'', he''⟩ := ih acc'
          (by simp only [List.map_cons, List.nodup_cons] at hnd; exact hnd.2)
          ⟨g, hgr, hneed', a, ha, e, he⟩
        refine ⟨e'', ?_⟩
        rw [List.foldlM_cons, hstep]
        exact he''

/-- A successful `stepAna` on one file leaves lookups at other paths
unchanged. -/
theorem stepAna_lookup_ne (env : AnalyzerEnv) (acc acc' : List Dependency × ProjectState)
    (f : MFile) (hstep : stepAna env acc f = .ok acc') (p : String)
    (h : f.path ≠ p) :
    lookupFile acc'.2 p = lookupFile acc.2 p := by
  unfold stepAna at hstep
  split at hstep
  · split at hstep
    · split at hstep
      · cases hstep
        exact lookupFile_update_ne env acc.2 f _ p h
      · cases hstep
    · split at hstep
      · cases hstep
        rfl
      · cases hstep
        rfl
  · cases hstep
    rfl

/-- If some walked file has a registered analyzer, needs analysis, and its
analyzer fails, the per-file fold of `analyze_project`
(src/analysis/analyzers.rs) short-circuits with an error. -/
theorem foldlM_stepAna_error (env : AnalyzerEnv) (fs : List MFile) :
    ∀ acc : List Dependency × ProjectState,
      (fs.map (fun f => f.path)).Nodup →
      (∃ f ∈ fs, needs_analysis env acc.2 f = true ∧
         ∃ a, env.getAnalyzer f.path = some a ∧ ∃ e, a f.content = .error e) →
      ∃ e, fs.foldlM (stepAna env) acc = .error e := by
  induction fs with
  | nil =>
    intro acc _ hex
    exact absurd hex (by simp)
  | cons f rest ih =>
    intro acc hnd hex
    obtain ⟨g, hg, hneed, a, ha, e, he⟩ := hex
    rcases List.mem_cons.mp hg with hgf | hgr
    · subst hgf
      have hstep : stepAna env acc g = .error e := by
        simp [stepAna, ha, hneed, he]
      refine ⟨e, ?_⟩
      rw [List.foldlM_cons, hstep]
      rfl
    · cases hstep : stepAna env acc f with
      | error e' =>
        refine ⟨e', ?_⟩
        rw [List.foldlM_cons, hstep]
        rfl
      | ok acc' =>
        have hne : f.path ≠ g.path := by
          have hmem : g.path ∈ rest.map (fun f => f.path) := List.mem_map_of_mem _ hgr
          have hnotin : f.path ∉ rest.map (fun f => f.path) := by
            simp only [List.map_cons, List.nodup_cons] at hnd
            exact hnd.1
          exact fun hEq => hnotin (hEq ▸ hmem)
        have hlook := stepAna_lookup_ne env acc acc' f hstep g.path hne
        have hneed' : needs_analysis env acc'.2 g = true := by
          rw [needs_analysis_congr env acc'.2 acc.2 g hlook]
          exact hneed
        obtain ⟨e'', he''⟩ := ih acc'
          (by simp only [List.map_cons, List.nodup_cons] at hnd; exact hnd.2)
          ⟨g, hgr, hneed', a, ha, e, he⟩
        refine ⟨e'', ?_⟩
        rw [List.foldlM_cons, hstep]
        exact he''

/-- C2 amended: a failure to analyze one individual file (a file with a
registered analyzer that needs analysis and whose analyzer errors) aborts the
whole `analyze_project` run with an error, in both implementations; no
results are returned for the remaining files.  (Paths are distinct, as
produced by the filesystem walk.) -/
theorem analyze_project_per_file_error_aborts (env : AnalyzerEnv) (fs : List MFile)
    (st : ProjectState) (hnd : (fs.map (fun f => f.path)).Nodup)
    (hex : ∃ f ∈ fs, needs_analysis env st f = true ∧
       ∃ a, env.getAnalyzer f.path = some a ∧ ∃ e, a f.content = .error e) :
    (∃ e, analyzeProjectMgr env fs st = .error e) ∧
    (∀ now, ∃ e, analyzeProjectAna env now fs st = .error e) := by
  constructor
  · obtain ⟨e, he⟩ := foldlM_stepMgr_error env fs ([], st) hnd hex
    refine ⟨e, ?_⟩
    unfold analyzeProjectMgr
    rw [he]
    rfl
  · intro now
    obtain ⟨e, he⟩ := foldlM_stepAna_error env fs ([], st) hnd hex
    refine ⟨e, ?_⟩
    unfold analyzeProjectAna
    rw [he]
    rfl

/-- Witness for the amended C2 at a concrete failing project. -/
theorem analyze_project_per_file_error_aborts_witness :
    (∃ e, analyzeProjectMgr envC2 [⟨"bad.rs", 1, "x"⟩] ⟨0, []⟩ = .error e) ∧
    (∀ now, ∃ e, analyzeProjectAna envC2 now [⟨"bad.rs", 1, "x"⟩] ⟨0, []⟩ = .error e) :=
  analyze_project_per_file_error_aborts envC2 [⟨"bad.rs", 1, "x"⟩] ⟨0, []⟩
    (by decide)
    ⟨⟨"bad.rs", 1, "x"⟩, by decide, by decide,
      fun _ => .error "analysis failed", rfl, "analysis failed", rfl⟩

/-! ## Vector similarity (src/indexing/store/common.rs, src/indexing/embeddings.rs)

`f32` components are modeled as `ℚ`.  `f32::sqrt` is an abstract parameter
`sqrtFn`; only its zero/nonzero behaviour matters here, and IEEE sqrt is exact
at 0 (`sqrt 0 = 0`).  An IEEE division whose divisor is exactly 0 yields
NaN/infinity rather than a number; `fdiv` models this undefined outcome as
`none`. -/

/-- `a.iter().zip(b.iter()).map(|(x, y)| x * y).sum()`. -/
def dotProduct (a b : List ℚ) : ℚ := ((a.zip b).map (fun p => p.1 * p.2)).sum

/-- `v.iter().map(|x| x * x).sum::<f32>()`. -/
def sumSquares (v : List ℚ) : ℚ := (v.map (fun x => x * x)).sum

/-- Division as it behaves in IEEE float code: defined only for a nonzero
divisor. -/
def fdiv (x y : ℚ) : Option ℚ := if y = 0 then none else some (x / y)

/-- `cosine_similarity` from src/indexing/store/common.rs lines 82-87: the
division is unguarded. -/
def cosine_similarity (sqrtFn : ℚ → ℚ) (a b : List ℚ) : Option ℚ :=
  fdiv (dotProduct a b) (sqrtFn (sumSquares a) * sqrtFn (sumSquares b))

/-- `EmbeddingVector::cosine_similarity` from src/indexing/embeddings.rs lines
145-156: zero norms are guarded and yield 0. -/
def ev_cosine_similarity (sqrtFn : ℚ → ℚ) (a b : List ℚ) : Option ℚ :=
  let norm_a := sqrtFn (sumSquares a)
  let norm_b := sqrtFn (sumSquares b)
  if norm_a = 0 ∨ norm_b = 0 then some 0
  else fdiv (dotProduct a b) (norm_a * norm_b)

/-- C4: evaluation at a zero-norm first argument (with the sqrt parameter
instantiated by a function that, like IEEE sqrt, is exact on 0 and 1): the
`VectorIndex` similarity of src/indexing/store/common.rs divides 0.0 by 0.0
and is undefined (NaN) rather than 0 — the zero-norm guard exists only in
`EmbeddingVector::cosine_similarity`, which indeed yields 0. -/
theorem cosine_similarity_zero_norm_undefined :
    cosine_similarity (fun q => q) [0] [1] = none ∧
    ev_cosine_similarity (fun q => q) [0] [1] = some 0 := by
  constructor
  · simp [cosine_similarity, fdiv, dotProduct, sumSquares]
  · simp [ev_cosine_similarity, fdiv, dotProduct, sumSquares]

/-! ## VectorIndex (src/indexing/store/common.rs, src/indexing/store/code_store.rs) -/

/-- `IndexMetadata` from src/indexing/store/common.rs. -/
structure IndexMetadata where
  id : Nat
  path : String
  modality : String
  attributes : List (String × String)
deriving DecidableEq, Repr

/-- `IndexConfig` from src/indexing/store/common.rs. -/
structure IndexConfig where
  num_trees : Nat
  max_items_per_node : Nat
  search_k : Nat
deriving DecidableEq, Repr

/-- `HashMap::insert` on the metadata map. -/
def insertMeta (m : List (Nat × IndexMetadata)) (k : Nat) (v : IndexMetadata) :
    List (Nat × IndexMetadata) :=
  if m.any (fun e => decide (e.1 = k)) then m.map (fun e => if e.1 = k then (k, v) else e)
  else m ++ [(k, v)]

/-- `HashMap::get` on the metadata map. -/
def lookupMeta (m : List (Nat × IndexMetadata)) (k : Nat) : Option IndexMetadata :=
  (m.find? (fun e => decide (e.1 = k))).map (fun e => e.2)

/-- `VectorIndex` from src/indexing/store/common.rs. -/
structure VectorIndex where
  vectors : List (List ℚ)
  metadata : List (Nat × IndexMetadata)
  config : IndexConfig
deriving DecidableEq, Repr

/-- `VectorIndex::add` from src/indexing/store/common.rs lines 62-67: the id
is the current number of vectors; the caller's metadata value is stored
verbatim. -/
def VectorIndex.add (idx : VectorIndex) (vector : List ℚ) (metadata : IndexMetadata) :
    VectorIndex :=
  { idx with
    vectors := idx.vectors ++ [vector],
    metadata := insertMeta idx.metadata idx.vectors.length metadata }

/-- `create_metadata` from src/indexing/store/code_store.rs lines 214-246:
builds the attribute map from the analysis (abstracted here to the given
attribute list) and sets `id: 0`, annotated `// Will be set by index`. -/
def create_metadata (path modality : String) (attributes : List (String × String)) :
    IndexMetadata :=
  ⟨0, path, modality, attributes⟩

/-- C7: evaluation of two `add` calls (with metadata produced by
`create_metadata`, as `CodeVectorStore::add` does): the metadata keys are
dense (0, 1) and aligned, but the `id` field recorded inside the entry stored
under key 1 is 0, not 1 — `VectorIndex::add` never overwrites the caller's
`id` field even though `create_metadata` sets it to 0 with the comment "Will
be set by index". -/
theorem vectorIndex_add_metadata_id_not_assigned :
    (((VectorIndex.add (VectorIndex.add ⟨[], [], ⟨10, 100, 50⟩⟩
        [1] (create_metadata "a.rs" "code" []))
        [0, 1] (create_metadata "b.rs" "code" [])).metadata.map (fun e => e.1) = [0, 1]) ∧
    lookupMeta ((VectorIndex.add (VectorIndex.add ⟨[], [], ⟨10, 100, 50⟩⟩
        [1] (create_metadata "a.rs" "code" []))
        [0, 1] (create_metadata "b.rs" "code" [])).metadata) 1
      = some (create_metadata "b.rs" "code" []) ∧
    (create_metadata "b.rs" "code" []).id = 0) := by decide

/-! ## EmbeddingCache (src/indexing/embeddings.rs lines 169-255) -/

/-- `CacheEntry` from src/indexing/embeddings.rs; `SystemTime` becomes `Nat`. -/
structure CacheEntry where
  vector : List ℚ
  last_accessed : Nat
  access_count : Nat
deriving DecidableEq, Repr

/-- `CacheConfig` from src/indexing/embeddings.rs; `Duration` becomes `Nat`. -/
structure CacheConfig where
  max_size : Nat
  ttl : Nat
  cleanup_interval : Nat
deriving DecidableEq, Repr

/-- `EmbeddingCache`: the `DashMap` becomes an association list whose order
models the map's (arbitrary) iteration order. -/
structure EmbeddingCache where
  entries : List (String × CacheEntry)
  config : CacheConfig
deriving DecidableEq, Repr

/-- `Iterator::min_by_key` on `access_count` over the map entries: the first
entry (in iteration order) with minimal access count, `none` on an empty
map. -/
def minByAccessCount : List (String × CacheEntry) → Option (String × CacheEntry)
  | [] => none
  | e :: rest =>
    match minByAccessCount rest with
    | none => some e
    | some m => if m.2.access_count < e.2.access_count then some m else some e

/-- `evict_least_used` from src/indexing/embeddings.rs lines 246-254: remove
the entry found by `min_by_key` (no-op on an empty cache). -/
def evict_least_used (c : EmbeddingCache) : EmbeddingCache :=
  match minByAccessCount c.entries with
  | some km => { c with entries := c.entries.eraseP (fun e => decide (e.1 = km.1)) }
  | none => c

/-- `DashMap::insert`: replace the existing entry for the key, otherwise
append. -/
def insertCacheEntry (entries : List (String × CacheEntry)) (k : String) (v : CacheEntry) :
    List (String × CacheEntry) :=
  if entries.any (fun e => decide (e.1 = k)) then
    entries.map (fun e => if e.1 = k then (k, v) else e)
  else entries ++ [(k, v)]

/-- `EmbeddingCache::insert` from src/indexing/embeddings.rs lines 231-244:
evict when at capacity, then insert a fresh entry with `access_count: 1`. -/
def EmbeddingCache.insert (c : EmbeddingCache) (key : String) (vector : List ℚ)
    (now : Nat) : EmbeddingCache :=
  let c1 := if c.entries.length ≥ c.config.max_size then evict_least_used c else c
  { c1 with entries := insertCacheEntry c1.entries key ⟨vector, now, 1⟩ }

/-- The cache used by the C8 counterexample: empty, with `max_size = 0`. -/
def cacheC8 : EmbeddingCache := ⟨[], ⟨0, 10, 5⟩⟩

/-- C8 counterexample: with `max_size = 0` the cache already holds at least
`max_size` entries, yet `insert` leaves it with 1 > 0 entries — `min_by_key`
on the empty map evicts nothing and the new entry is inserted regardless, so
the claimed capacity bound fails as stated. -/
theorem cache_insert_capacity_counterexample :
    cacheC8.entries.length ≥ cacheC8.config.max_size ∧
    ¬ ((EmbeddingCache.insert cacheC8 "k" [1] 0).entries.length
        ≤ cacheC8.config.max_size) := by decide

theorem minByAccessCount_eq_none (l : List (String × CacheEntry))
    (h : minByAccessCount l = none) : l = [] := by
  cases l with
  | nil => rfl
  | cons a rest =>
    simp only [minByAccessCount] at h
    split at h
    · cases h
    · split at h <;> cases h

theorem minByAccessCount_isSome (l : List (String × CacheEntry)) (h : l ≠ []) :
    ∃ km, minByAccessCount l = some km := by
  cases hm : minByAccessCount l with
  | none => exact absurd (minByAccessCount_eq_none l hm) h
  | some km => exact ⟨km, rfl⟩

theorem minByAccessCount_mem (l : List (String × CacheEntry)) :
    ∀ e, minByAccessCount l = some e → e ∈ l := by
  induction l with
  | nil => intro e h; cases h
  | cons a rest ih =>
    intro e h
    simp only [minByAccessCount] at h
    split at h
    · cases h
      exact List.mem_cons_self _ _
    next m hm =>
      split at h
      · cases h
        exact List.mem_cons_of_mem _ (ih _ hm)
      · cases h
        exact List.mem_cons_self _ _

theorem minByAccessCount_le (l : List (String × CacheEntry)) :
    ∀ e, minByAccessCount l = some e →
      ∀ p ∈ l, e.2.access_count ≤ p.2.access_count := by
  induction l with
  | nil => intro e h; cases h
  | cons a rest ih =>
    intro e h p hp
    simp only [minByAccessCount] at h
    split at h
    next hm =>
      cases h
      have hrest : rest = [] := minByAccessCount_eq_none _ hm
      subst hrest
      rcases List.mem_cons.mp hp with h1 | h1
      · subst h1; exact le_refl _
      · cases h1
    next m hm =>
      split at h
      next hlt =>
        cases h
        rcases List.mem_cons.mp hp with h1 | h1
        · subst h1; exact le_of_lt hlt
        · exact ih _ hm _ h1
      next hlt =>
        cases h
        rcases List.mem_cons.mp hp with h1 | h1
        · subst h1; exact le_refl _
        · exact le_trans (le_of_not_lt hlt) (ih _ hm _ h1)

theorem insertCacheEntry_length_le (entries : List (String × CacheEntry)) (k : String)
    (v : CacheEntry) : (insertCacheEntry entries k v).length ≤ entries.length + 1 := by
  unfold insertCacheEntry
  split
  · rw [List.length_map]
    omega
  · rw [List.length_append]
    simp

/-- C8 amended: when `insert` is called while the cache holds exactly
`max_size` entries and `max_size ≥ 1` (the only at-capacity states reachable
from an empty cache), the evicted entry is one whose `access_count` is
minimal among all entries, and afterwards the cache holds at most `max_size`
entries.  (As stated — "at least `max_size`" with no lower bound on
`max_size` — the claim fails, see the counterexample with `max_size = 0`.) -/
theorem cache_insert_evicts_least_used (c : EmbeddingCache) (key : String) (v : List ℚ)
    (now : Nat) (h1 : 1 ≤ c.config.max_size) (h2 : c.entries.length = c.config.max_size) :
    (∃ km : String × CacheEntry, km ∈ c.entries ∧
       (∀ p ∈ c.entries, km.2.access_count ≤ p.2.access_count) ∧
       (EmbeddingCache.insert c key v now).entries
         = insertCacheEntry (c.entries.eraseP (fun e => decide (e.1 = km.1))) key ⟨v, now, 1⟩) ∧
    (EmbeddingCache.insert c key v now).entries.length ≤ c.config.max_size := by
  have hne : c.entries ≠ [] := by
    intro hE
    rw [hE] at h2
    simp only [List.length_nil] at h2
    omega
  obtain ⟨km, hkm⟩ := minByAccessCount_isSome c.entries hne
  have hmem := minByAccessCount_mem c.entries km hkm
  have hmin := minByAccessCount_le c.entries km hkm
  have hcond : c.entries.length ≥ c.config.max_size := le_of_eq h2.symm
  have hins : (EmbeddingCache.insert c key v now).entries
      = insertCacheEntry (c.entries.eraseP (fun e => decide (e.1 = km.1))) key ⟨v, now, 1⟩ := by
    unfold EmbeddingCache.insert evict_least_used
    rw [if_pos hcond, hkm]
  refine ⟨⟨km, hmem, hmin, hins⟩, ?_⟩
  rw [hins]
  have herase : (c.entries.eraseP (fun e => decide (e.1 = km.1))).length
      = c.entries.length - 1 :=
    List.length_eraseP_of_mem hmem (by simp)
  have hle := insertCacheEntry_length_le
    (c.entries.eraseP (fun e => decide (e.1 = km.1))) key ⟨v, now, 1⟩
  rw [herase] at hle
  omega

/-- The two-entry cache at capacity used by the C8 witness. -/
def cacheW : EmbeddingCache := ⟨[("a", ⟨[1], 0, 5⟩), ("b", ⟨[2], 0, 3⟩)], ⟨2, 10, 5⟩⟩

/-- Witness for the amended C8: the theorem applied to a concrete cache of
two entries at capacity 2. -/
theorem cache_insert_evicts_least_used_witness :
    (∃ km : String × CacheEntry, km ∈ cacheW.entries ∧
       (∀ p ∈ cacheW.entries, km.2.access_count ≤ p.2.access_count) ∧
       (EmbeddingCache.insert cacheW "c" [3] 7).entries
         = insertCacheEntry (cacheW.entries.eraseP (fun e => decide (e.1 = km.1)))
             "c" ⟨[3], 7, 1⟩) ∧
    (EmbeddingCache.insert cacheW "c" [3] 7).entries.length ≤ cacheW.config.max_size :=
  cache_insert_evicts_least_used cacheW "c" [3] 7 (by decide) (by decide)

/-! ## DependencyGraph (src/graph/mod.rs) -/

/-- `Edge` from src/graph/mod.rs; `PathBuf` becomes `String`. -/
structure Edge where
  source : String
  target : String
  edge_type : DependencyType
  metadata : DependencyMetadata
deriving DecidableEq, Repr

/-- The dependency graph as an edge list.  The node map does not bear on the
verified queries. -/
structure DependencyGraph where
  edges : List Edge
deriving DecidableEq, Repr

/-- `edge_index.get(p)` of src/graph/mod.rs.  The functions that populate
`edge_index : HashMap<PathBuf, HashSet<Edge>>` (`add_edge`, `add_node`) are
called by `add_dependencies` but missing from the source tree.  Modelled
from the spec: the graph maintains a forward adjacency index keyed by the
source node (spec sections 4.2 and 9), so the entry for `p` holds the edges
whose source is `p`; the list order models the hash set's (arbitrary)
iteration order.  The verified traversal properties are stated over the same
adjacency, so they are independent of this modeling. -/
def edgesFrom (g : DependencyGraph) (p : String) : List Edge :=
  g.edges.filter (fun e => decide (e.source = p))

/-- `find_parent` from src/graph/mod.rs lines 252-261: the target of the
first Inheritance edge out of the node, if any. -/
def find_parent (g : DependencyGraph) (p : String) : Option String :=
  ((edgesFrom g p).find?
      (fun e => decide (e.edge_type = DependencyType.Inheritance))).map
    (fun e => e.target)

/-- `IndirectRelationship` from src/graph/mod.rs.  The `intermediate_nodes`
field (populated by `get_path_between`) is not modeled: the verified
properties do not constrain it. -/
structure IndirectRelationship where
  path : String
  relationship_type : DependencyType
  depth : Nat
deriving DecidableEq, Repr

/-- The BFS loop of `get_indirect_relationships` (src/graph/mod.rs lines
168-203), with explicit fuel standing for the unbounded `while let` over the
queue.  One fuel unit is one queue pop; a popped node is expanded only while
its recorded depth is at most 3; expansion visits each outgoing edge, and an
unvisited target is marked visited, enqueued at depth+1, and reported at the
current node's depth.  Each enqueue marks a fresh node visited and visited
nodes other than the start are edge targets, so a run performs at most
`edges.length + 1` pops; the fuel used by `get_indirect_relationships` below
therefore never runs out. -/
def bfsAux (g : DependencyGraph) :
    Nat → List (String × Nat) → List String → List IndirectRelationship →
      List IndirectRelationship
  | 0, _, _, acc => acc
  | _ + 1, [], _, acc => acc
  | fuel + 1, (current, depth) :: queue, visited, acc =>
    if depth > 3 then bfsAux g fuel queue visited acc
    else
      let st := (edgesFrom g current).foldl
        (fun st e =>
          if e.target ∈ st.2.1 then st
          else (st.1 ++ [(e.target, depth + 1)], e.target :: st.2.1,
                st.2.2 ++ [⟨e.target, e.edge_type, depth⟩]))
        (queue, visited, acc)
      bfsAux g fuel st.1 st.2.1 st.2.2

/-- `get_indirect_relationships` from src/graph/mod.rs lines 168-203: BFS
from the node, which is pre-marked visited and enqueued at depth 0. -/
def get_indirect_relationships (g : DependencyGraph) (file : String) :
    List IndirectRelationship :=
  bfsAux g (g.edges.length + 2) [(file, 0)] [file] []

/-- `t` is reachable from `s` by following at most `n` outgoing edges. -/
def reachableWithin (g : DependencyGraph) : Nat → String → String → Bool
  | 0, s, t => decide (s = t)
  | n + 1, s, t =>
    decide (s = t) || (edgesFrom g s).any (fun e => reachableWithin g n e.target t)

/-- An edge for the C6 counterexample chain. -/
def chainEdge (s t : String) : Edge := ⟨s, t, .Import, ⟨none, none⟩⟩

/-- The 4-edge chain a → b → c → d → e. -/
def gChain : DependencyGraph :=
  ⟨[chainEdge "a" "b", chainEdge "b" "c", chainEdge "c" "d", chainEdge "d" "e"]⟩

/-- C6 counterexample: on the chain a → b → c → d → e,
`get_indirect_relationships a` reports the node `e`, which is not reachable
in at most 3 hops — the loop only skips nodes whose recorded depth exceeds 3,
so it expands depth-3 nodes and reports their targets, 4 hops away. -/
theorem get_indirect_relationships_depth4_counterexample :
    (⟨"e", .Import, 3⟩ : IndirectRelationship) ∈ get_indirect_relationships gChain "a" ∧
    reachableWithin gChain 3 "a" "e" = false := by decide

theorem reachableWithin_succ (g : DependencyGraph) (t : String) :
    ∀ (n : Nat) (s : String), reachableWithin g n s t = true →
      reachableWithin g (n + 1) s t = true := by
  intro n
  induction n with
  | zero =>
    intro s h
    have hs : s = t := by simpa [reachableWithin] using h
    simp [reachableWithin, hs]
  | succ n ih =>
    intro s h
    rw [reachableWithin] at h
    rw [reachableWithin]
    simp only [Bool.or_eq_true, decide_eq_true_eq, List.any_eq_true] at h ⊢
    rcases h with h | ⟨e, he, h2⟩
    · exact Or.inl h
    · exact Or.inr ⟨e, he, ih _ h2⟩

theorem reachableWithin_mono (g : DependencyGraph) (t : String) (n m : Nat) (s : String)
    (hnm : n ≤ m) (h : reachableWithin g n s t = true) :
    reachableWithin g m s t = true := by
  induction m with
  | zero =>
    have hn : n = 0 := Nat.le_zero.mp hnm
    rw [hn] at h
    exact h
  | succ m ih =>
    rcases Nat.lt_or_ge n (m + 1) with hlt | hge
    · exact reachableWithin_succ g t m s (ih (Nat.lt_succ_iff.mp hlt))
    · have : n = m + 1 := Nat.le_antisymm hnm hge
      rw [this] at h
      exact h

theorem reachableWithin_refl (g : DependencyGraph) (t : String) (n : Nat) :
    reachableWithin g n t t = true := by
  cases n <;> simp [reachableWithin]

theorem reachableWithin_step (g : DependencyGraph) (cur : String) (e : Edge)
    (he : e ∈ edgesFrom g cur) :
    ∀ (n : Nat) (s : String), reachableWithin g n s cur = true →
      reachableWithin g (n + 1) s e.target = true := by
  intro n
  induction n with
  | zero =>
    intro s h
    have hs : s = cur := by simpa [reachableWithin] using h
    subst hs
    rw [reachableWithin]
    simp only [Bool.or_eq_true, decide_eq_true_eq, List.any_eq_true]
    exact Or.inr ⟨e, he, reachableWithin_refl g e.target 0⟩
  | succ n ih =>
    intro s h
    rw [reachableWithin] at h
    rw [reachableWithin]
    simp only [Bool.or_eq_true, decide_eq_true_eq, List.any_eq_true] at h ⊢
    rcases h with h | ⟨e2, he2, h2⟩
    · subst h
      exact Or.inr ⟨e, he, reachableWithin_refl g e.target (n + 1)⟩
    · exact Or.inr ⟨e2, he2, ih _ h2⟩

/-- Invariant of the BFS state: queue entries are at depth at most 4 and
reachable within their recorded depth; reported relationships are reachable
within 4 hops, have pairwise distinct targets, and their targets are
visited. -/
def BfsInv (g : DependencyGraph) (file : String)
    (st : List (String × Nat) × List String × List IndirectRelationship) : Prop :=
  (∀ q ∈ st.1, q.2 ≤ 4 ∧ reachableWithin g q.2 file q.1 = true) ∧
  (∀ r ∈ st.2.2, reachableWithin g 4 file r.path = true) ∧
  (st.2.2.map (fun r => r.path)).Nodup ∧
  (∀ r ∈ st.2.2, r.path ∈ st.2.1)

theorem bfsFold_inv (g : DependencyGraph) (file : String) (depth : Nat)
    (hd : depth + 1 ≤ 4) :
    ∀ (es : List Edge)
      (st : List (String × Nat) × List String × List IndirectRelationship),
      (∀ e ∈ es, reachableWithin g (depth + 1) file e.target = true) →
      BfsInv g file st →
      BfsInv g file (es.foldl
        (fun st e =>
          if e.target ∈ st.2.1 then st
          else (st.1 ++ [(e.target, depth + 1)], e.target :: st.2.1,
                st.2.2 ++ [⟨e.target, e.edge_type, depth⟩])) st) := by
  intro es
  induction es with
  | nil =>
    intro st _ h
    exact h
  | cons e rest ih =>
    intro st hes hinv
    rw [List.foldl_cons]
    apply ih _ (fun e2 he2 => hes e2 (List.mem_cons_of_mem _ he2))
    by_cases hmem : e.target ∈ st.2.1
    · simpa [hmem] using hinv
    · obtain ⟨hq, hacc, hnd, hsub⟩ := hinv
      simp only [if_neg hmem]
      refine ⟨?_, ?_, ?_, ?_⟩
      · intro q hq2
        rcases List.mem_append.mp hq2 with h1 | h1
        · exact hq q h1
        · have hq1 : q = (e.target, depth + 1) := by simpa using h1
          rw [hq1]
          exact ⟨hd, hes e (List.mem_cons_self _ _)⟩
      · intro r hr
        rcases List.mem_append.mp hr with h1 | h1
        · exact hacc r h1
        · have hr1 : r = ⟨e.target, e.edge_type, depth⟩ := by simpa using h1
          rw [hr1]
          exact reachableWithin_mono g e.target (depth + 1) 4 file hd
            (hes e (List.mem_cons_self _ _))
      · rw [List.map_append]
        refine List.Nodup.append hnd (by simp) ?_
        intro a ha hb
        have hb1 : a = e.target := by simpa using hb
        obtain ⟨r, hr, hrp⟩ := List.mem_map.mp ha
        exact hmem (hb1 ▸ hrp ▸ hsub r hr)
      · intro r hr
        rcases List.mem_append.mp hr with h1 | h1
        · exact List.mem_cons_of_mem _ (hsub r h1)
        · have hr1 : r = ⟨e.target, e.edge_type, depth⟩ := by simpa using h1
          rw [hr1]
          exact List.mem_cons_self _ _

theorem bfsAux_inv (g : DependencyGraph) (file : String) :
    ∀ (fuel : Nat) (queue : List (String × Nat)) (visited : List String)
      (acc : List IndirectRelationship),
      BfsInv g file (queue, visited, acc) →
      (∀ r ∈ bfsAux g fuel queue visited acc,
        reachableWithin g 4 file r.path = true) ∧
      ((bfsAux g fuel queue visited acc).map (fun r => r.path)).Nodup := by
  intro fuel
  induction fuel with
  | zero =>
    intro queue visited acc hinv
    exact ⟨hinv.2.1, hinv.2.2.1⟩
  | succ fuel ih =>
    intro queue visited acc hinv
    cases queue with
    | nil => exact ⟨hinv.2.1, hinv.2.2.1⟩
    | cons q rest =>
      obtain ⟨cur, depth⟩ := q
      by_cases hd : depth > 3
      · have hEq : bfsAux g (fuel + 1) ((cur, depth) :: rest) visited acc
            = bfsAux g fuel rest visited acc := by
          simp [bfsAux, hd]
        rw [hEq]
        exact ih rest visited acc
          ⟨fun q hq => hinv.1 q (List.mem_cons_of_mem _ hq),
           hinv.2.1, hinv.2.2.1, hinv.2.2.2⟩
      · have hqhead := hinv.1 (cur, depth) (List.mem_cons_self _ _)
        have hes : ∀ e ∈ edgesFrom g cur,
            reachableWithin g (depth + 1) file e.target = true :=
          fun e he => reachableWithin_step g cur e he depth file hqhead.2
        have hd4 : depth + 1 ≤ 4 := by omega
        have hfold := bfsFold_inv g file depth hd4 (edgesFrom g cur)
          (rest, visited, acc) hes
          ⟨fun q hq => hinv.1 q (List.mem_cons_of_mem _ hq),
           hinv.2.1, hinv.2.2.1, hinv.2.2.2⟩
        have hEq : bfsAux g (fuel + 1) ((cur, depth) :: rest) visited acc
            = bfsAux g fuel
                ((edgesFrom g cur).foldl
                  (fun st e =>
                    if e.target ∈ st.2.1 then st
                    else (st.1 ++ [(e.target, depth + 1)], e.target :: st.2.1,
                          st.2.2 ++ [⟨e.target, e.edge_type, depth⟩]))
                  (rest, visited, acc)).1
                ((edgesFrom g cur).foldl
                  (fun st e =>
                    if e.target ∈ st.2.1 then st
                    else (st.1 ++ [(e.target, depth + 1)], e.target :: st.2.1,
                          st.2.2 ++ [⟨e.target, e.edge_type, depth⟩]))
                  (rest, visited, acc)).2.1
                ((edgesFrom g cur).foldl
                  (fun st e =>
                    if e.target ∈ st.2.1 then st
                    else (st.1 ++ [(e.target, depth + 1)], e.target :: st.2.1,
                          st.2.2 ++ [⟨e.target, e.edge_type, depth⟩]))
                  (rest, visited, acc)).2.2 := by
          simp [bfsAux, hd]
        rw [hEq]
        exact ih _ _ _ hfold

/-- C6 amended: every target reported by `get_indirect_relationships` is
reachable from the node by following outgoing edges in at most 4 hops (the
loop expands nodes of recorded depth up to 3, so reported targets lie one hop
beyond them), and each discovered node appears at most once in the result
(BFS with a visited set).  The claimed 3-hop bound fails, see the
counterexample. -/
theorem get_indirect_relationships_spec (g : DependencyGraph) (file : String) :
    (∀ r ∈ get_indirect_relationships g file,
      reachableWithin g 4 file r.path = true) ∧
    ((get_indirect_relationships g file).map (fun r => r.path)).Nodup := by
  unfold get_indirect_relationships
  apply bfsAux_inv
  refine ⟨?_, ?_, ?_, ?_⟩
  · intro q hq
    have hq1 : q = (file, 0) := by simpa using hq
    rw [hq1]
    exact ⟨by omega, reachableWithin_refl g file 0⟩
  · intro r hr
    cases hr
  · simp
  · intro r hr
    cases hr

/-- Witness for the amended C6: the 4-hop reachability of a reported target
on the concrete chain, obtained by applying the theorem. -/
theorem get_indirect_relationships_spec_witness :
    reachableWithin gChain 4 "a" "e" = true :=
  (get_indirect_relationships_spec gChain "a").1 ⟨"e", .Import, 3⟩ (by decide)

/-- The `while let` loop of `calculate_inheritance_depth` (src/graph/mod.rs
lines 236-250) with explicit fuel: follow `find_parent` upward, erroring when
the parent about to be recorded was already visited (the code's
`!visited.insert(parent)` check).  `none` marks exhausted fuel; the spec
theorem shows the fuel chosen below never runs out. -/
def inheritDepthAux (g : DependencyGraph) :
    Nat → String → List String → Nat → Option (Except String Nat)
  | 0, _, _, _ => none
  | fuel + 1, current, visited, depth =>
    match find_parent g current with
    | none => some (.ok depth)
    | some parent =>
      if parent ∈ visited then some (.error "Cyclic inheritance detected")
      else inheritDepthAux g fuel parent (parent :: visited) (depth + 1)

/-- `calculate_inheritance_depth` from src/graph/mod.rs lines 236-250.  Each
loop iteration inserts a distinct inheritance-edge target into the visited
set, so `edges.length + 1` fuel always suffices. -/
def calculate_inheritance_depth (g : DependencyGraph) (file : String) :
    Option (Except String Nat) :=
  inheritDepthAux g (g.edges.length + 1) file [] 0

/-- The `n`-fold iteration of `find_parent` from a node. -/
def parentIter (g : DependencyGraph) : Nat → String → Option String
  | 0, x => some x
  | n + 1, x => (parentIter g n x).bind (find_parent g)

/-- The upward inheritance walk from `x` reaches a node with no Inheritance
parent after exactly `d` single-parent hops. -/
def chainEnds (g : DependencyGraph) (x : String) (d : Nat) : Prop :=
  ∃ y, parentIter g d x = some y ∧ find_parent g y = none

/-- The targets of Inheritance edges: the only values `find_parent` can
return. -/
def inheritanceTargets (g : DependencyGraph) : List String :=
  (g.edges.filter (fun e => decide (e.edge_type = DependencyType.Inheritance))).map
    (fun e => e.target)

theorem find_parent_mem_targets (g : DependencyGraph) (p q : String)
    (h : find_parent g p = some q) : q ∈ inheritanceTargets g := by
  unfold find_parent at h
  cases hf : (edgesFrom g p).find?
      (fun e => decide (e.edge_type = DependencyType.Inheritance)) with
  | none => rw [hf] at h; cases h
  | some e =>
    rw [hf] at h
    have hq : e.target = q := by simpa using h
    have hmem : e ∈ edgesFrom g p := List.mem_of_find?_eq_some hf
    have htype : e.edge_type = DependencyType.Inheritance := by
      have := List.find?_some hf
      simpa using this
    unfold inheritanceTargets
    refine List.mem_map.mpr ⟨e, ?_, hq⟩
    refine List.mem_filter.mpr ⟨?_, by simp [htype]⟩
    exact List.mem_of_mem_filter hmem

/-- `Walk g x ps cur`: the upward walk from `x` has passed through the nodes
of `ps` (most recent first) and now stands at `cur`. -/
inductive Walk (g : DependencyGraph) (x : String) : List String → String → Prop where
  | nil : Walk g x [] x
  | cons {ps : List String} {cur next : String} :
      Walk g x ps cur → find_parent g cur = some next → Walk g x (next :: ps) next

theorem Walk.parentIter_eq {g : DependencyGraph} {x : String} :
    ∀ {ps : List String} {cur : String}, Walk g x ps cur →
      parentIter g ps.length x = some cur := by
  intro ps cur hw
  induction hw with
  | nil => rfl
  | @cons ps cur next hw hfp ih =>
    show parentIter g (ps.length + 1) x = some next
    rw [parentIter, ih]
    simpa using hfp

theorem Walk.mem_parent {g : DependencyGraph} {x : String} :
    ∀ {ps : List String} {cur : String}, Walk g x ps cur →
      ∀ s ∈ ps, s = cur ∨ ∃ t ∈ ps, find_parent g s = some t := by
  intro ps cur hw
  induction hw with
  | nil => intro s hs; cases hs
  | @cons ps cur next hw hfp ih =>
    intro s hs
    rcases List.mem_cons.mp hs with h1 | h1
    · exact Or.inl h1
    · rcases ih s h1 with h2 | ⟨t, ht, h3⟩
      · exact Or.inr ⟨next, List.mem_cons_self _ _, h2 ▸ hfp⟩
      · exact Or.inr ⟨t, List.mem_cons_of_mem _ ht, h3⟩

theorem Walk.cur_mem {g : DependencyGraph} {x : String} {ps : List String} {cur : String}
    (hw : Walk g x ps cur) (hne : ps ≠ []) : cur ∈ ps := by
  cases hw with
  | nil => exact absurd rfl hne
  | cons hw hfp => exact List.mem_cons_self _ _

theorem parentIter_trapped (g : DependencyGraph) (S : List String)
    (hS : ∀ s ∈ S, ∃ t ∈ S, find_parent g s = some t) (x : String) (m : Nat) (c : String)
    (hc : parentIter g m x = some c) (hcS : c ∈ S) :
    ∀ j, ∃ c2 ∈ S, parentIter g (m + j) x = some c2 := by
  intro j
  induction j with
  | zero => exact ⟨c, hcS, hc⟩
  | succ j ih =>
    obtain ⟨c2, hc2S, hc2⟩ := ih
    obtain ⟨t, htS, ht⟩ := hS c2 hc2S
    refine ⟨t, htS, ?_⟩
    show parentIter g (m + j + 1) x = some t
    rw [parentIter, hc2]
    simpa using ht

theorem chainEnds_parentIter_none (g : DependencyGraph) (x : String) (d : Nat)
    (h : chainEnds g x d) : ∀ m, d < m → parentIter g m x = none := by
  obtain ⟨y, hy, hfp⟩ := h
  have hstep : ∀ k, parentIter g (d + 1 + k) x = none := by
    intro k
    induction k with
    | zero =>
      show parentIter g (d + 1) x = none
      rw [parentIter, hy]
      simpa using hfp
    | succ k ih =>
      show parentIter g (d + 1 + k + 1) x = none
      rw [parentIter, ih]
      rfl
  intro m hm
  have hm2 : m = d + 1 + (m - d - 1) := by omega
  rw [hm2]
  exact hstep _

theorem trapped_no_chainEnds (g : DependencyGraph) (S : List String)
    (hS : ∀ s ∈ S, ∃ t ∈ S, find_parent g s = some t) (x : String) (m : Nat) (c : String)
    (hc : parentIter g m x = some c) (hcS : c ∈ S) :
    ∀ d, ¬ chainEnds g x d := by
  intro d hend
  rcases Nat.lt_or_ge d m with hlt | hge
  · have := chainEnds_parentIter_none g x d hend m hlt
    rw [this] at hc
    cases hc
  · obtain ⟨c2, hc2S, hc2⟩ := parentIter_trapped g S hS x m c hc hcS (d - m)
    have hdm : m + (d - m) = d := by omega
    rw [hdm] at hc2
    obtain ⟨y, hy, hfp⟩ := hend
    rw [hc2] at hy
    have hyc : c2 = y := by simpa using hy
    obtain ⟨t, _, ht⟩ := hS c2 hc2S
    rw [← hyc, ht] at hfp
    cases hfp

theorem visited_length_le (g : DependencyGraph) (visited : List String)
    (hnd : visited.Nodup) (hsub : ∀ p ∈ visited, p ∈ inheritanceTargets g) :
    visited.length ≤ (inheritanceTargets g).length := by
  classical
  have h1 : visited.toFinset.card = visited.length := List.toFinset_card_of_nodup hnd
  have h2 : visited.toFinset ⊆ (inheritanceTargets g).toFinset := by
    intro a ha
    rw [List.mem_toFinset] at ha ⊢
    exact hsub a ha
  calc visited.length = visited.toFinset.card := h1.symm
    _ ≤ (inheritanceTargets g).toFinset.card := Finset.card_le_card h2
    _ ≤ (inheritanceTargets g).length := List.toFinset_card_le _

theorem inheritDepthAux_spec (g : DependencyGraph) (x : String) :
    ∀ (fuel : Nat) (cur : String) (visited : List String),
      Walk g x visited cur →
      visited.Nodup →
      (∀ p ∈ visited, p ∈ inheritanceTargets g) →
      (inheritanceTargets g).length + 1 ≤ fuel + visited.length →
      ∃ r, inheritDepthAux g fuel cur visited visited.length = some r ∧
        ((∃ d, r = .ok d ∧ chainEnds g x d) ∨
         (r = .error "Cyclic inheritance detected" ∧ ∀ d, ¬ chainEnds g x d)) := by
  intro fuel
  induction fuel with
  | zero =>
    intro cur visited hw hnd hsub hfuel
    exfalso
    have := visited_length_le g visited hnd hsub
    omega
  | succ fuel ih =>
    intro cur visited hw hnd hsub hfuel
    cases hfp : find_parent g cur with
    | none =>
      refine ⟨.ok visited.length, ?_,
        Or.inl ⟨visited.length, rfl, cur, hw.parentIter_eq, hfp⟩⟩
      simp [inheritDepthAux, hfp]
    | some parent =>
      by_cases hmem : parent ∈ visited
      · refine ⟨.error "Cyclic inheritance detected", ?_, Or.inr ⟨rfl, ?_⟩⟩
        · simp [inheritDepthAux, hfp, hmem]
        · have hvne : visited ≠ [] := by
            intro hE
            rw [hE] at hmem
            cases hmem
          have hcur : cur ∈ visited := hw.cur_mem hvne
          have hclosed : ∀ s ∈ visited, ∃ t ∈ visited, find_parent g s = some t := by
            intro s hs
            rcases hw.mem_parent s hs with h1 | h1
            · exact ⟨parent, hmem, h1 ▸ hfp⟩
            · exact h1
          exact trapped_no_chainEnds g visited hclosed x visited.length cur
            hw.parentIter_eq hcur
      · have hw' : Walk g x (parent :: visited) parent := hw.cons hfp
        have hnd' : (parent :: visited).Nodup := List.nodup_cons.mpr ⟨hmem, hnd⟩
        have hsub' : ∀ p ∈ parent :: visited, p ∈ inheritanceTargets g := by
          intro p hp
          rcases List.mem_cons.mp hp with h1 | h1
          · rw [h1]
            exact find_parent_mem_targets g cur parent hfp
          · exact hsub p h1
        have hfuel' : (inheritanceTargets g).length + 1
            ≤ fuel + (parent :: visited).length := by
          simp only [List.length_cons]
          omega
        obtain ⟨r, hr, hcase⟩ := ih parent (parent :: visited) hw' hnd' hsub' hfuel'
        refine ⟨r, ?_, hcase⟩
        have hEq : inheritDepthAux g (fuel + 1) cur visited visited.length
            = inheritDepthAux g fuel parent (parent :: visited) (visited.length + 1) := by
          simp [inheritDepthAux, hfp, hmem]
        rw [hEq]
        simpa using hr

/-- C5: for every graph (cyclic Inheritance edges included),
`calculate_inheritance_depth` terminates (the fuel never runs out): it either
returns `ok d` where `d` is the number of upward single-parent Inheritance
hops to a node with no Inheritance parent, or — exactly when no such hop
count exists, i.e. the walk revisits a node — the error "Cyclic inheritance
detected" rather than looping forever. -/
theorem calculate_inheritance_depth_spec (g : DependencyGraph) (x : String) :
    ∃ r, calculate_inheritance_depth g x = some r ∧
      ((∃ d, r = .ok d ∧ chainEnds g x d) ∨
       (r = .error "Cyclic inheritance detected" ∧ ∀ d, ¬ chainEnds g x d)) := by
  have hlen : (inheritanceTargets g).length ≤ g.edges.length := by
    unfold inheritanceTargets
    rw [List.length_map]
    exact List.length_filter_le _ _
  have hmain := inheritDepthAux_spec g x (g.edges.length + 1) x [] Walk.nil
    List.nodup_nil (by intro p hp; cases hp) (by simp only [List.length_nil]; omega)
  simpa [calculate_inheritance_depth] using hmain

/-- Supporting evaluation: on the cycle A → B → A the metric reports the
cycle error, and on the chain A → B it reports depth 1. -/
theorem inheritance_depth_eval :
    calculate_inheritance_depth
      ⟨[⟨"A", "B", .Inheritance, ⟨none, none⟩⟩, ⟨"B", "A", .Inheritance, ⟨none, none⟩⟩]⟩
      "A" = some (.error "Cyclic inheritance detected") ∧
    calculate_inheritance_depth ⟨[⟨"A", "B", .Inheritance, ⟨none, none⟩⟩]⟩ "A"
      = some (.ok 1) := ⟨rfl, rfl⟩

/-! ## EmbeddingIndex (src/indexing/embedding_index.rs) -/

/-- `ChunkMetadata` from src/indexing/embeddings.rs. -/
structure ChunkMetadata where
  start_idx : Nat
  end_idx : Nat
  source_file : String
  language : Option String
deriving DecidableEq, Repr

/-- `TextChunk` from src/indexing/embeddings.rs. -/
structure TextChunk where
  content : String
  metadata : ChunkMetadata
deriving DecidableEq, Repr

/-- `DimensionIndex` from src/indexing/embedding_index.rs. -/
structure DimensionIndex where
  dimension : Nat
  values : List (ℚ × Nat)
deriving DecidableEq, Repr

/-- `IndexConfig` from src/indexing/embedding_index.rs (named apart from the
`IndexConfig` of src/indexing/store/common.rs above). -/
structure EmbedIndexConfig where
  num_dimensions_to_index : Nat
  similarity_threshold : ℚ
deriving DecidableEq, Repr

/-- `EmbeddingIndex` from src/indexing/embedding_index.rs. -/
structure EmbeddingIndex where
  vectors : List (List ℚ × TextChunk)
  dimension_indices : List DimensionIndex
  config : EmbedIndexConfig
deriving DecidableEq, Repr

/-- The `while dim_idx >= self.dimension_indices.len()` push loop of
`EmbeddingIndex::add`: append empty `DimensionIndex` records (each tagged
with the current `dim_idx`) until position `d` exists. -/
def ensureDim (dims : List DimensionIndex) (d : Nat) : List DimensionIndex :=
  dims ++ List.replicate (d + 1 - dims.length) ⟨d, []⟩

/-- In-place update of the list element at a position (a `Vec` index
assignment). -/
def modifyIdx (f : DimensionIndex → DimensionIndex) :
    Nat → List DimensionIndex → List DimensionIndex
  | _, [] => []
  | 0, a :: as => f a :: as
  | n + 1, a :: as => a :: modifyIdx f n as

/-- `sort_by` on `(value, vector_id)` pairs by value (ascending). -/
def sortValues (vals : List (ℚ × Nat)) : List (ℚ × Nat) :=
  vals.mergeSort (fun a b => decide (a.1 ≤ b.1))

/-- One iteration of the per-dimension loop of `EmbeddingIndex::add`: grow
the dimension list if needed, push `(value, vector_id)` and re-sort that
dimension's values. -/
def addValue (dims : List DimensionIndex) (d : Nat) (value : ℚ) (vidx : Nat) :
    List DimensionIndex :=
  modifyIdx (fun di => { di with values := sortValues (di.values ++ [(value, vidx)]) })
    d (ensureDim dims d)

/-- `EmbeddingIndex::add` from src/indexing/embedding_index.rs lines 31-55:
append the vector, then index its leading `num_dimensions_to_index`
components. -/
def EmbeddingIndex.add (idx : EmbeddingIndex) (vector : List ℚ) (chunk : TextChunk) :
    EmbeddingIndex :=
  { idx with
    vectors := idx.vectors ++ [(vector, chunk)],
    dimension_indices :=
      ((vector.take idx.config.num_dimensions_to_index).enum).foldl
        (fun dims p => addValue dims p.1 p.2 idx.vectors.length)
        idx.dimension_indices }

/-- The neighbor-band check: the stored value lies within the fixed tolerance
0.1 of the query's value. -/
def inBand (value : ℚ) (e : ℚ × Nat) : Bool := decide (|e.1 - value| ≤ 1 / 10)

/-- `find_similar_in_dimension` from src/indexing/embedding_index.rs lines
104-136.  `slice::binary_search_by` over the sorted values is modeled by its
library contract as the lower-bound partition point (the number of stored
values strictly below the query value); the two `while` scans — leftward over
positions below the start, rightward from the start — are the `takeWhile`s of
the in-band run on each side. -/
def find_similar_in_dimension (di : DimensionIndex) (value : ℚ) : List Nat :=
  ((((di.values.take (di.values.countP (fun e => decide (e.1 < value)))).reverse.takeWhile
      (inBand value)).map (fun e => e.2))) ++
  (((di.values.drop (di.values.countP (fun e => decide (e.1 < value)))).takeWhile
      (inBand value)).map (fun e => e.2))

/-- The per-dimension loop of `find_candidates`: for each enumerated query
component (index below `num_dimensions_to_index`), access
`dimension_indices[dim_idx]` — `none` models the out-of-bounds panic when
that position does not exist — and collect that dimension's neighbor list. -/
def collectSimilars (idx : EmbeddingIndex) : List (Nat × ℚ) → Option (List (List Nat))
  | [] => some []
  | p :: rest =>
    match idx.dimension_indices.get? p.1 with
    | none => none
    | some di =>
      match collectSimilars idx rest with
      | none => none
      | some ls => some (find_similar_in_dimension di p.2 :: ls)

/-- `find_candidates` from src/indexing/embedding_index.rs lines 79-102: a
`HashMap<usize, u32>` scores each vector id by its number of occurrences
among the per-dimension neighbor lists (modeled: the key set is the
deduplicated union, in one arbitrary iteration order, and the score of `i`
is the total occurrence count); keep the ids whose score exceeds
`num_dimensions_to_index / 3` (integer division). -/
def find_candidates (idx : EmbeddingIndex) (query : List ℚ) : Option (List Nat) :=
  match collectSimilars idx (query.take idx.config.num_dimensions_to_index).enum with
  | none => none
  | some similars =>
    some (((similars.flatten).dedup).filter
      (fun i => decide ((similars.map (fun l => l.count i)).sum
        > idx.config.num_dimensions_to_index / 3)))

/-- The candidate re-ranking loop of `search`: look up each candidate's
stored vector (`none` models the `self.vectors[idx]` panic, unreachable for
ids produced by `add`) and compute its exact guarded cosine similarity
against the query. -/
def lookupSimilarities (sqrtFn : ℚ → ℚ) (idx : EmbeddingIndex) (query : List ℚ) :
    List Nat → Option (List (TextChunk × ℚ))
  | [] => some []
  | i :: rest =>
    match idx.vectors.get? i with
    | none => none
    | some vc =>
      match ev_cosine_similarity sqrtFn vc.1 query with
      | none => none
      | some s =>
        match lookupSimilarities sqrtFn idx query rest with
        | none => none
        | some tl => some ((vc.2, s) :: tl)

/-- `EmbeddingIndex::search` from src/indexing/embedding_index.rs lines
57-77: find candidates, re-rank them by exact cosine similarity, filter by
the minimum-similarity threshold, sort descending, truncate to `top_k`. -/
def EmbeddingIndex.search (sqrtFn : ℚ → ℚ) (idx : EmbeddingIndex) (query : List ℚ)
    (top_k : Nat) : Option (List (TextChunk × ℚ)) :=
  match find_candidates idx query with
  | none => none
  | some candidates =>
    match lookupSimilarities sqrtFn idx query candidates with
    | none => none
    | some results =>
      some (((results.filter
          (fun r => decide (r.2 ≥ idx.config.similarity_threshold))).mergeSort
        (fun a b => decide (b.2 ≤ a.2))).take top_k)

/-- The stored values of the per-dimension index at position `d` (empty when
that dimension index does not exist). -/
def dimValues (idx : EmbeddingIndex) (d : Nat) : List (ℚ × Nat) :=
  match idx.dimension_indices.get? d with
  | some di => di.values
  | none => []

/-- The number of indexed dimensions whose neighbor band (stored values
within the fixed tolerance 0.1 of the query's value in that dimension)
contains vector `i`. -/
def bandHits (idx : EmbeddingIndex) (query : List ℚ) (i : Nat) : Nat :=
  (((query.take idx.config.num_dimensions_to_index).enum).filter
    (fun p => (dimValues idx p.1).any (fun e => decide (e.2 = i) && inBand p.2 e))).length

/-- A freshly constructed index (no `add` calls), `num_dimensions_to_index`
8 as in a typical configuration. -/
def emptyEIndex : EmbeddingIndex := ⟨[], [], ⟨8, 0⟩⟩

/-- C10: evaluation at a fresh index and a non-empty query:
`find_candidates` reads `self.dimension_indices[0]`, which does not exist —
an out-of-bounds panic (modeled as `none`), so `search` fails rather than
returning a result, contradicting the claimed totality. -/
theorem search_empty_index_out_of_bounds :
    find_candidates emptyEIndex [0] = none ∧
    EmbeddingIndex.search (fun q => q) emptyEIndex [0] 5 = none := ⟨rfl, rfl⟩

theorem mem_takeWhile_append {α : Type} (p : α → Bool) (l1 l2 : List α) (x : α)
    (h1 : ∀ y ∈ l1, p y = true) (hx : p x = true) :
    x ∈ (l1 ++ x :: l2).takeWhile p := by
  induction l1 with
  | nil =>
    rw [List.nil_append, List.takeWhile_cons, hx]
    exact List.mem_cons_self _ _
  | cons a l1 ih =>
    have ha : p a = true := h1 a (List.mem_cons_self _ _)
    rw [List.cons_append, List.takeWhile_cons, ha]
    exact List.mem_cons_of_mem _ (ih (fun y hy => h1 y (List.mem_cons_of_mem _ hy)))

theorem mem_takeWhile_pred {α : Type} (p : α → Bool) (l : List α) (x : α)
    (h : x ∈ l.takeWhile p) : p x = true := by
  induction l with
  | nil => cases h
  | cons a l ih =>
    rw [List.takeWhile_cons] at h
    by_cases ha : p a = true
    · rw [ha] at h
      simp only [if_true] at h
      rcases List.mem_cons.mp h with h1 | h1
      · rw [h1]; exact ha
      · exact ih h1
    · rw [Bool.not_eq_true] at ha
      rw [ha] at h
      simp only [Bool.false_eq_true, if_false] at h
      cases h

theorem sorted_countP_take (vals : List (ℚ × Nat)) (q : ℚ)
    (hsort : List.Pairwise (fun a b : ℚ × Nat => a.1 ≤ b.1) vals) :
    (∀ e ∈ vals.take (vals.countP (fun e => decide (e.1 < q))), e.1 < q) ∧
    (∀ e ∈ vals.drop (vals.countP (fun e => decide (e.1 < q))), q ≤ e.1) := by
  induction vals with
  | nil => exact ⟨fun e he => absurd he (by simp), fun e he => absurd he (by simp)⟩
  | cons a rest ih =>
    obtain ⟨hrel, hrest⟩ := List.pairwise_cons.mp hsort
    obtain ⟨ih1, ih2⟩ := ih hrest
    by_cases ha : a.1 < q
    · have hc : (a :: rest).countP (fun e => decide (e.1 < q))
          = rest.countP (fun e => decide (e.1 < q)) + 1 := by
        rw [List.countP_cons]
        simp [ha]
      rw [hc]
      constructor
      · intro e he
        rw [List.take_succ_cons] at he
        rcases List.mem_cons.mp he with h1 | h1
        · rw [h1]; exact ha
        · exact ih1 e h1
      · intro e he
        rw [List.drop_succ_cons] at he
        exact ih2 e he
    · have hc0 : rest.countP (fun e => decide (e.1 < q)) = 0 := by
        rw [List.countP_eq_zero]
        intro e he
        simp only [decide_eq_true_eq]
        intro hlt
        exact ha (lt_of_le_of_lt (hrel e he) hlt)
      have hc : (a :: rest).countP (fun e => decide (e.1 < q)) = 0 := by
        rw [List.countP_cons, hc0]
        simp [ha]
      rw [hc]
      refine ⟨fun e he => absurd he (by simp), ?_⟩
      intro e he
      rw [List.drop_zero] at he
      rcases List.mem_cons.mp he with h1 | h1
      · rw [h1]; exact le_of_not_lt ha
      · exact le_trans (le_of_not_lt ha) (hrel e h1)

/-- Membership characterization of `find_similar_in_dimension` on a sorted
dimension index: the collected ids are exactly the ids having a stored value
within the tolerance band of the query value. -/
theorem find_similar_mem (di : DimensionIndex) (q : ℚ) (i : Nat)
    (hsort : List.Pairwise (fun a b : ℚ × Nat => a.1 ≤ b.1) di.values) :
    i ∈ find_similar_in_dimension di q ↔
      ∃ v : ℚ, (v, i) ∈ di.values ∧ |v - q| ≤ 1 / 10 := by
  obtain ⟨hF1, hF2⟩ := sorted_countP_take di.values q hsort
  unfold find_similar_in_dimension
  constructor
  · intro h
    rcases List.mem_append.mp h with h1 | h1
    · obtain ⟨e, he, hei⟩ := List.mem_map.mp h1
      have hband := mem_takeWhile_pred _ _ _ he
      have hmemrev : e ∈ (di.values.take
          (di.values.countP (fun e => decide (e.1 < q)))).reverse :=
        (List.takeWhile_sublist _).subset he
      have hmem : e ∈ di.values :=
        List.take_subset _ _ (List.mem_reverse.mp hmemrev)
      refine ⟨e.1, ?_, ?_⟩
      · have : (e.1, e.2) = e := rfl
        rw [hei] at this
        rw [this]
        exact hmem
      · simpa [inBand] using hband
    · obtain ⟨e, he, hei⟩ := List.mem_map.mp h1
      have hband := mem_takeWhile_pred _ _ _ he
      have hmem : e ∈ di.values :=
        List.drop_subset _ _ ((List.takeWhile_sublist _).subset he)
      refine ⟨e.1, ?_, ?_⟩
      · have : (e.1, e.2) = e := rfl
        rw [hei] at this
        rw [this]
        exact hmem
      · simpa [inBand] using hband
  · rintro ⟨v, hmem, hband⟩
    have habs := abs_le.mp hband
    rw [← List.take_append_drop (di.values.countP (fun e => decide (e.1 < q)))
      di.values] at hmem
    rcases List.mem_append.mp hmem with h1 | h1
    · -- the in-band entry lies in the strictly-below prefix
      apply List.mem_append_left
      have hrev : (v, i) ∈ (di.values.take
          (di.values.countP (fun e => decide (e.1 < q)))).reverse :=
        List.mem_reverse.mpr h1
      obtain ⟨l1, l2, hdec⟩ := List.append_of_mem hrev
      have hpw : ((di.values.take
          (di.values.countP (fun e => decide (e.1 < q)))).reverse).Pairwise
          (fun a b : ℚ × Nat => b.1 ≤ a.1) :=
        List.pairwise_reverse.mpr (List.Pairwise.sublist (List.take_sublist _ _) hsort)
      have hl1 : ∀ y ∈ l1, inBand q y = true := by
        intro y hy
        have hyrev : y ∈ (di.values.take
            (di.values.countP (fun e => decide (e.1 < q)))).reverse := by
          rw [hdec]
          exact List.mem_append_left _ hy
        have hylt : y.1 < q := hF1 y (List.mem_reverse.mp hyrev)
        have hge : v ≤ y.1 := by
          rw [hdec] at hpw
          exact (List.pairwise_append.mp hpw).2.2 y hy (v, i)
            (List.mem_cons_self _ _)
        simp only [inBand, decide_eq_true_eq]
        rw [abs_le]
        constructor <;> [linarith; linarith]
      have hx : inBand q (v, i) = true := by
        simp only [inBand, decide_eq_true_eq]
        exact hband
      have := mem_takeWhile_append (inBand q) l1 l2 (v, i) hl1 hx
      rw [← hdec] at this
      exact List.mem_map.mpr ⟨(v, i), this, rfl⟩
    · -- the in-band entry lies in the at-least suffix
      apply List.mem_append_right
      obtain ⟨l1, l2, hdec⟩ := List.append_of_mem h1
      have hpw : ((di.values.drop
          (di.values.countP (fun e => decide (e.1 < q))))).Pairwise
          (fun a b : ℚ × Nat => a.1 ≤ b.1) :=
        List.Pairwise.sublist (List.drop_sublist _ _) hsort
      have hl1 : ∀ y ∈ l1, inBand q y = true := by
        intro y hy
        have hydrop : y ∈ di.values.drop
            (di.values.countP (fun e => decide (e.1 < q))) := by
          rw [hdec]
          exact List.mem_append_left _ hy
        have hyge : q ≤ y.1 := hF2 y hydrop
        have hle : y.1 ≤ v := by
          rw [hdec] at hpw
          exact (List.pairwise_append.mp hpw).2.2 y hy (v, i)
            (List.mem_cons_self _ _)
        simp only [inBand, decide_eq_true_eq]
        rw [abs_le]
        constructor <;> [linarith; linarith]
      have hx : inBand q (v, i) = true := by
        simp only [inBand, decide_eq_true_eq]
        exact hband
      have := mem_takeWhile_append (inBand q) l1 l2 (v, i) hl1 hx
      rw [← hdec] at this
      exact List.mem_map.mpr ⟨(v, i), this, rfl⟩

/-- On a dimension index whose stored ids are distinct, each id occurs at
most once in the collected neighbor list. -/
theorem find_similar_count_le_one (di : DimensionIndex) (q : ℚ) (i : Nat)
    (hnd : (di.values.map (fun e => e.2)).Nodup) :
    (find_similar_in_dimension di q).count i ≤ 1 := by
  unfold find_similar_in_dimension
  rw [List.count_append]
  have hL : ((((di.values.take
      (di.values.countP (fun e => decide (e.1 < q)))).reverse.takeWhile
        (inBand q)).map (fun e => e.2)).count i)
      ≤ (((di.values.take
        (di.values.countP (fun e => decide (e.1 < q)))).map (fun e => e.2)).count i) := by
    calc (((di.values.take
          (di.values.countP (fun e => decide (e.1 < q)))).reverse.takeWhile
            (inBand q)).map (fun e => e.2)).count i
        ≤ (((di.values.take
            (di.values.countP (fun e => decide (e.1 < q)))).reverse).map
              (fun e => e.2)).count i :=
          ((List.takeWhile_sublist _).map _).count_le _
      _ = _ := by rw [List.map_reverse, List.count_reverse]
  have hR : ((((di.values.drop
      (di.values.countP (fun e => decide (e.1 < q)))).takeWhile
        (inBand q)).map (fun e => e.2)).count i)
      ≤ (((di.values.drop
        (di.values.countP (fun e => decide (e.1 < q)))).map (fun e => e.2)).count i) :=
    ((List.takeWhile_sublist _).map _).count_le _
  have hsum : (((di.values.take
      (di.values.countP (fun e => decide (e.1 < q)))).map (fun e => e.2)).count i)
      + (((di.values.drop
        (di.values.countP (fun e => decide (e.1 < q)))).map (fun e => e.2)).count i)
      = ((di.values.map (fun e => e.2)).count i) := by
    rw [← List.count_append, ← List.map_append, List.take_append_drop]
  have hone : ((di.values.map (fun e => e.2)).count i) ≤ 1 :=
    List.nodup_iff_count_le_one.mp hnd i
  omega

/-- The integer comparison `count > n / 3` coincides with the rational
comparison `count > n/3`. -/
theorem third_threshold (c n : Nat) : c > n / 3 ↔ ((c : ℚ) > (n : ℚ) / 3) := by
  rw [gt_iff_lt, Nat.div_lt_iff_lt_mul (by norm_num : 0 < 3)]
  rw [gt_iff_lt, div_lt_iff₀ (by norm_num : (0 : ℚ) < 3)]
  constructor
  · intro h
    exact_mod_cast h
  · intro h
    exact_mod_cast h

/-- The total occurrence count of id `i` over the per-dimension neighbor
lists equals the number of iterated dimensions whose band contains `i`
(on well-formed dimension indices). -/
theorem sum_counts_eq (idx : EmbeddingIndex) (i : Nat)
    (hw : ∀ di ∈ idx.dimension_indices,
      List.Pairwise (fun a b : ℚ × Nat => a.1 ≤ b.1) di.values ∧
      (di.values.map (fun e => e.2)).Nodup) :
    ∀ (dims : List (Nat × ℚ)) (similars : List (List Nat)),
      collectSimilars idx dims = some similars →
      (similars.map (fun l => l.count i)).sum
        = (dims.filter (fun p => (dimValues idx p.1).any
            (fun e => decide (e.2 = i) && inBand p.2 e))).length := by
  intro dims
  induction dims with
  | nil =>
    intro similars h
    simp only [collectSimilars] at h
    cases h
    simp
  | cons p rest ih =>
    intro similars h
    simp only [collectSimilars] at h
    split at h
    · cases h
    next di hdi =>
      split at h
      · cases h
      next ls hls =>
        cases h
        have hwf := hw di (List.get?_mem hdi)
        have hdv : dimValues idx p.1 = di.values := by
          unfold dimValues
          rw [hdi]
        have hiff := find_similar_mem di p.2 i hwf.1
        have hle1 := find_similar_count_le_one di p.2 i hwf.2
        have hpred : ((dimValues idx p.1).any
            (fun e => decide (e.2 = i) && inBand p.2 e) = true)
            ↔ i ∈ find_similar_in_dimension di p.2 := by
          rw [hdv, hiff, List.any_eq_true]
          constructor
          · rintro ⟨e, he, hee⟩
            rw [Bool.and_eq_true, decide_eq_true_eq] at hee
            refine ⟨e.1, ?_, by simpa [inBand] using hee.2⟩
            have hEq : (e.1, e.2) = e := rfl
            rw [hee.1] at hEq
            rw [hEq]
            exact he
          · rintro ⟨v, hv, hband⟩
            refine ⟨(v, i), hv, ?_⟩
            rw [Bool.and_eq_true, decide_eq_true_eq]
            exact ⟨rfl, by simpa [inBand] using hband⟩
        rw [List.map_cons, List.sum_cons, List.filter_cons]
        by_cases hmem : i ∈ find_similar_in_dimension di p.2
        · have hpos : 0 < (find_similar_in_dimension di p.2).count i :=
            List.count_pos_iff.mpr hmem
          have hc1 : (find_similar_in_dimension di p.2).count i = 1 := by omega
          have htrue : ((dimValues idx p.1).any
              (fun e => decide (e.2 = i) && inBand p.2 e)) = true := hpred.mpr hmem
          rw [hc1, htrue, ih ls hls]
          simp [Nat.add_comm]
        · have hc0 : (find_similar_in_dimension di p.2).count i = 0 :=
            List.count_eq_zero.mpr hmem
          have hfalse : ((dimValues idx p.1).any
              (fun e => decide (e.2 = i) && inBand p.2 e)) = false := by
            rw [Bool.eq_false_iff]
            intro hcontra
            exact hmem (hpred.mp hcontra)
          rw [hc0, hfalse, ih ls hls]
          simp

/-- C9: a stored vector id is kept by `find_candidates` (and hence passed to
exact cosine re-ranking by `search`) only if the number of indexed dimensions
whose neighbor band contains it strictly exceeds one third of
`num_dimensions_to_index`: the code's integer comparison
`count > num_dimensions_to_index / 3` holds, and it coincides exactly with
the rational comparison `count > n/3` (last conjunct, for all naturals).
The hypotheses are the invariants `add` maintains: each dimension's values
sorted, each dimension's stored ids distinct. -/
theorem find_candidates_band_threshold (idx : EmbeddingIndex) (query : List ℚ)
    (cands : List Nat) (i : Nat)
    (hw : ∀ di ∈ idx.dimension_indices,
      List.Pairwise (fun a b : ℚ × Nat => a.1 ≤ b.1) di.values ∧
      (di.values.map (fun e => e.2)).Nodup)
    (hc : find_candidates idx query = some cands) (hi : i ∈ cands) :
    bandHits idx query i > idx.config.num_dimensions_to_index / 3 ∧
    ((bandHits idx query i : ℚ) > (idx.config.num_dimensions_to_index : ℚ) / 3) ∧
    (∀ c n : Nat, c > n / 3 ↔ ((c : ℚ) > (n : ℚ) / 3)) := by
  unfold find_candidates at hc
  split at hc
  · cases hc
  next similars hsim =>
    cases hc
    have hmem := (List.mem_filter.mp hi).2
    have hscore : (similars.map (fun l => l.count i)).sum
        > idx.config.num_dimensions_to_index / 3 := by
      simpa using hmem
    have hsum := sum_counts_eq idx i hw _ similars hsim
    have hbh : bandHits idx query i = (similars.map (fun l => l.count i)).sum := by
      unfold bandHits
      rw [hsum]
    refine ⟨by rw [hbh]; exact hscore, ?_, third_threshold⟩
    rw [hbh]
    exact (third_threshold _ _).mp hscore

/-- A concrete chunk for the C9 witness. -/
def chunkW : TextChunk := ⟨"fn main", ⟨0, 7, "a.rs", some "Rust"⟩⟩

/-- A one-vector index (one indexed dimension, value 1 at dimension 0). -/
def eIndexW : EmbeddingIndex := ⟨[([1], chunkW)], [⟨0, [(1, 0)]⟩], ⟨1, 0⟩⟩

/-- Witness for C9: the theorem applied to a one-vector index queried with
its own vector, whose sole candidate is the vector itself. -/
theorem find_candidates_band_threshold_witness :
    bandHits eIndexW [1] 0 > eIndexW.config.num_dimensions_to_index / 3 ∧
    ((bandHits eIndexW [1] 0 : ℚ)
      > (eIndexW.config.num_dimensions_to_index : ℚ) / 3) ∧
    (∀ c n : Nat, c > n / 3 ↔ ((c : ℚ) > (n : ℚ) / 3)) :=
  find_candidates_band_threshold eIndexW [1] [0] 0
    (by simp [eIndexW])
    (by simp [find_candidates, collectSimilars, find_similar_in_dimension, inBand,
      eIndexW])
    (by decide)

/-! ## Supporting development: idempotence of the analysis/analyzers.rs
`analyze_project` (the implementation with the cached-dependency reuse
branch), backing the C1 verdict that the reuse branch is the intended
behaviour. -/

theorem find?_filter_retain (files : List (String × FileState)) (cur : List String)
    (p : String) (hp : p ∈ cur) :
    (files.filter (fun e => decide (e.1 ∈ cur))).find? (fun e => decide (e.1 = p))
      = files.find? (fun e => decide (e.1 = p)) := by
  induction files with
  | nil => rfl
  | cons e rest ih =>
    rw [List.filter_cons]
    by_cases he : e.1 ∈ cur
    · rw [if_pos (by simp [he])]
      by_cases hk : e.1 = p
      · rw [List.find?_cons_of_pos _ (by simp [hk]), List.find?_cons_of_pos _ (by simp [hk])]
      · rw [List.find?_cons_of_neg _ (by simp [hk]), List.find?_cons_of_neg _ (by simp [hk])]
        exact ih
    · rw [if_neg (by simp [he])]
      have hk : ¬ e.1 = p := fun hEq => he (hEq ▸ hp)
      rw [List.find?_cons_of_neg _ (by simp [hk])]
      exact ih

/-- Pruning to the current walk does not change the entry of a file that was
observed in the walk. -/
theorem lookupFile_retain (st : ProjectState) (cur : List String) (p : String)
    (hp : p ∈ cur) :
    lookupFile (retainCurrent st cur) p = lookupFile st p := by
  unfold lookupFile retainCurrent
  rw [find?_filter_retain st.analyzed_files cur p hp]

theorem find?_insertFile_self (files : List (String × FileState)) (p : String)
    (s : FileState) :
    (insertFile files p s).find? (fun e => decide (e.1 = p)) = some (p, s) := by
  unfold insertFile
  by_cases ha : (files.any (fun e => decide (e.1 = p))) = true
  · simp only [ha, if_true]
    induction files with
    | nil => simp at ha
    | cons e rest ih =>
      by_cases he : e.1 = p
      · rw [List.map_cons, if_pos he, List.find?_cons_of_pos _ (by simp)]
      · have ha2 : (rest.any (fun e => decide (e.1 = p))) = true := by
          rw [List.any_cons] at ha
          simpa [he] using ha
        rw [List.map_cons, if_neg he, List.find?_cons_of_neg _ (by simp [he])]
        exact ih ha2
  · simp only [ha, Bool.false_eq_true, if_false]
    have hnone : files.find? (fun e => decide (e.1 = p)) = none := by
      rw [List.find?_eq_none]
      intro e he
      rw [List.any_eq_true] at ha
      simpa using fun hEq => ha ⟨e, he, by simp [hEq]⟩
    rw [List.find?_append, hnone, Option.none_or]
    simp [List.find?_cons]

/-- After `update_file_state`, the file's own entry holds the fresh mtime,
dependencies and hash. -/
theorem lookupFile_update_self (env : AnalyzerEnv) (st : ProjectState) (f : MFile)
    (deps : List Dependency) :
    lookupFile (update_file_state env st f deps) f.path
      = some ⟨f.mtime, deps, env.hashFn f.content⟩ := by
  unfold lookupFile update_file_state
  rw [find?_insertFile_self]
  rfl

/-- A successful fold of `stepAna` leaves lookups at paths outside the folded
files unchanged. -/
theorem foldAna_lookup_ne (env : AnalyzerEnv) :
    ∀ (fs : List MFile) (acc acc' : List Dependency × ProjectState),
      fs.foldlM (stepAna env) acc = .ok acc' →
      ∀ p, p ∉ fs.map (fun f => f.path) →
        lookupFile acc'.2 p = lookupFile acc.2 p := by
  intro fs
  induction fs with
  | nil =>
    intro acc acc' h p _
    cases h
    rfl
  | cons f rest ih =>
    intro acc acc' h p hp
    rw [List.foldlM_cons] at h
    cases hstep : stepAna env acc f with
    | error e =>
      rw [hstep] at h
      cases h
    | ok acc1 =>
      rw [hstep] at h
      have hp1 : f.path ≠ p := by
        intro hEq
        exact hp (by rw [List.map_cons, ← hEq]; exact List.mem_cons_self _ _)
      have hp2 : p ∉ rest.map (fun f => f.path) := by
        intro hmem
        exact hp (by rw [List.map_cons]; exact List.mem_cons_of_mem _ hmem)
      rw [ih acc1 acc' h p hp2]
      exact stepAna_lookup_ne env acc acc1 f hstep p hp1

/-- Core idempotence of the per-file fold of the analysis/analyzers.rs
`analyze_project`: a successful first pass produces a dependency tail, and a
second pass over any state that agrees with the final first-pass state on the
walked files reproduces exactly that tail while leaving the state
untouched. -/
theorem foldAna_idempotent (env : AnalyzerEnv) :
    ∀ (fs : List MFile), (fs.map (fun f => f.path)).Nodup →
    ∀ (st : ProjectState) (d0 deps : List Dependency) (st' : ProjectState),
      fs.foldlM (stepAna env) (d0, st) = .ok (deps, st') →
      ∃ tail, deps = d0 ++ tail ∧
        ∀ (st2 : ProjectState),
          (∀ f ∈ fs, lookupFile st2 f.path = lookupFile st' f.path) →
          ∀ d2, fs.foldlM (stepAna env) (d2, st2) = .ok (d2 ++ tail, st2) := by
  intro fs
  induction fs with
  | nil =>
    intro _ st d0 deps st' h
    cases h
    exact ⟨[], by simp, fun st2 _ d2 => by simp only [List.append_nil]; rfl⟩
  | cons f rest ih =>
    intro hnd st d0 deps st' h
    rw [List.foldlM_cons] at h
    have hndr : (rest.map (fun f => f.path)).Nodup := by
      simp only [List.map_cons, List.nodup_cons] at hnd
      exact hnd.2
    have hfnotin : f.path ∉ rest.map (fun f => f.path) := by
      simp only [List.map_cons, List.nodup_cons] at hnd
      exact hnd.1
    cases hstep : stepAna env (d0, st) f with
    | error e =>
      rw [hstep] at h
      cases h
    | ok acc1 =>
      rw [hstep] at h
      obtain ⟨acc1d, acc1s⟩ := acc1
      have h2 : rest.foldlM (stepAna env) (acc1d, acc1s) = .ok (deps, st') := h
      obtain ⟨tailr, hdeps, hsecond⟩ := ih hndr acc1s acc1d deps st' h2
      have hpreserve : lookupFile st' f.path = lookupFile acc1s f.path :=
        foldAna_lookup_ne env rest (acc1d, acc1s) (deps, st') h2 f.path hfnotin
      unfold stepAna at hstep
      split at hstep
      next analyzeFile hga =>
        split at hstep
        next hneeds =>
          split at hstep
          next newDeps hok =>
            cases hstep
            refine ⟨newDeps ++ tailr, by rw [hdeps]; simp, ?_⟩
            intro st2 hlook d2
            have hf2 : lookupFile st2 f.path
                = some ⟨f.mtime, newDeps, env.hashFn f.content⟩ := by
              rw [hlook f (List.mem_cons_self _ _), hpreserve, lookupFile_update_self]
            have hneeds2 : needs_analysis env st2 f = false := by
              unfold needs_analysis
              rw [hf2]
              simp
            have hstep2 : stepAna env (d2, st2) f = .ok (d2 ++ newDeps, st2) := by
              simp [stepAna, hga, hneeds2, hf2]
            rw [List.foldlM_cons, hstep2]
            have hrest := hsecond st2
              (fun g hg => hlook g (List.mem_cons_of_mem _ hg)) (d2 ++ newDeps)
            show rest.foldlM (stepAna env) (d2 ++ newDeps, st2)
              = .ok (d2 ++ (newDeps ++ tailr), st2)
            rw [← List.append_assoc]
            exact hrest
          next e herr =>
            cases hstep
        next hneeds =>
          split at hstep
          next cached hcache =>
            cases hstep
            refine ⟨cached.dependencies ++ tailr, by rw [hdeps]; simp, ?_⟩
            intro st2 hlook d2
            have hf2 : lookupFile st2 f.path = some cached := by
              rw [hlook f (List.mem_cons_self _ _), hpreserve]
              exact hcache
            have hneeds1 : needs_analysis env st f = false := by
              rw [← Bool.not_eq_true]
              exact hneeds
            have hneeds2 : needs_analysis env st2 f = false := by
              rw [needs_analysis_congr env st2 st f (by rw [hf2, hcache])]
              exact hneeds1
            have hstep2 : stepAna env (d2, st2) f
                = .ok (d2 ++ cached.dependencies, st2) := by
              simp [stepAna, hga, hneeds2, hf2]
            rw [List.foldlM_cons, hstep2]
            have hrest := hsecond st2
              (fun g hg => hlook g (List.mem_cons_of_mem _ hg))
              (d2 ++ cached.dependencies)
            show rest.foldlM (stepAna env) (d2 ++ cached.dependencies, st2)
              = .ok (d2 ++ (cached.dependencies ++ tailr), st2)
            rw [← List.append_assoc]
            exact hrest
          next hcache =>
            exfalso
            apply hneeds
            unfold needs_analysis
            rw [show lookupFile (d0, st).2 f.path = none from hcache]
      next hga =>
        cases hstep
        refine ⟨tailr, hdeps, ?_⟩
        intro st2 hlook d2
        have hstep2 : stepAna env (d2, st2) f = .ok (d2, st2) := by
          simp [stepAna, hga]
        rw [List.foldlM_cons, hstep2]
        exact hsecond st2 (fun g hg => hlook g (List.mem_cons_of_mem _ hg)) d2

/-- `retain` twice with the same walk prunes nothing further. -/
theorem retainCurrent_idem (st : ProjectState) (cur : List String) :
    retainCurrent (retainCurrent st cur) cur = retainCurrent st cur := by
  unfold retainCurrent
  simp only [List.filter_filter]
  congr 1
  apply List.filter_congr
  intro e _
  simp

/-- Supporting theorem for C1: the analysis/analyzers.rs `analyze_project`
(the implementation with the cached-dependency reuse branch) is idempotent:
a second run over an unchanged filesystem returns the same dependency list,
and leaves the state unchanged except for the `last_analysis` timestamp
(the `analyzed_files` entries, hashes included, are identical). -/
theorem analyzeProjectAna_idempotent (env : AnalyzerEnv) (now1 now2 : Nat)
    (fs : List MFile) (st0 : ProjectState) (deps : List Dependency) (st1 : ProjectState)
    (hnd : (fs.map (fun f => f.path)).Nodup)
    (h1 : analyzeProjectAna env now1 fs st0 = .ok (deps, st1)) :
    analyzeProjectAna env now2 fs st1 = .ok (deps, saveState now2 st1) ∧
    (saveState now2 st1).analyzed_files = st1.analyzed_files := by
  unfold analyzeProjectAna at h1
  cases hfold : fs.foldlM (stepAna env) (([] : List Dependency), st0) with
  | error e =>
    rw [hfold] at h1
    cases h1
  | ok r =>
    rw [hfold] at h1
    obtain ⟨rd, rs⟩ := r
    have h1' : (Except.ok (rd,
        saveState now1 (retainCurrent rs (fs.map (fun f => f.path))))
        : Except String (List Dependency × ProjectState)) = .ok (deps, st1) := h1
    cases h1'
    obtain ⟨tail, hdeps, hsecond⟩ := foldAna_idempotent env fs hnd st0 [] deps rs hfold
    have htl : deps = tail := by simpa using hdeps
    subst htl
    have hlook : ∀ f ∈ fs,
        lookupFile (saveState now1 (retainCurrent rs (fs.map (fun f => f.path)))) f.path
          = lookupFile rs f.path := by
      intro f hf
      have hmem : f.path ∈ fs.map (fun f => f.path) := List.mem_map_of_mem _ hf
      have hsave : lookupFile (saveState now1
          (retainCurrent rs (fs.map (fun f => f.path)))) f.path
          = lookupFile (retainCurrent rs (fs.map (fun f => f.path))) f.path := rfl
      rw [hsave]
      exact lookupFile_retain rs _ f.path hmem
    have hrun2 := hsecond
      (saveState now1 (retainCurrent rs (fs.map (fun f => f.path)))) hlook []
    have hretain2 : retainCurrent
        (saveState now1 (retainCurrent rs (fs.map (fun f => f.path))))
        (fs.map (fun f => f.path))
        = saveState now1 (retainCurrent rs (fs.map (fun f => f.path))) := by
      have hcomm : retainCurrent
          (saveState now1 (retainCurrent rs (fs.map (fun f => f.path))))
          (fs.map (fun f => f.path))
          = saveState now1 (retainCurrent
              (retainCurrent rs (fs.map (fun f => f.path)))
              (fs.map (fun f => f.path))) := rfl
      rw [hcomm, retainCurrent_idem]
    refine ⟨?_, rfl⟩
    unfold analyzeProjectAna
    rw [show ([] : List Dependency) ++ deps = deps from by simp] at hrun2
    rw [hrun2]
    show Except.ok (deps, saveState now2 (retainCurrent
      (saveState now1 (retainCurrent rs (fs.map (fun f => f.path))))
      (fs.map (fun f => f.path)))) = _
    rw [hretain2]

/-- Supporting theorem for C7 (the conjuncts that do hold): after any
sequence of `VectorIndex::add` calls starting from a fresh store, the stored
vectors are exactly the added ones in order, the metadata keys are exactly
`0 .. n-1` in insertion order (dense, monotonically increasing, never
reused), and the metadata stored under key `j` is the metadata passed by the
`j`-th `add` call. -/
theorem vectorIndex_add_dense (cfg : IndexConfig)
    (pairs : List (List ℚ × IndexMetadata)) :
    (pairs.foldl (fun i p => VectorIndex.add i p.1 p.2)
        (⟨[], [], cfg⟩ : VectorIndex)).vectors = pairs.map (fun p => p.1) ∧
    ((pairs.foldl (fun i p => VectorIndex.add i p.1 p.2)
        (⟨[], [], cfg⟩ : VectorIndex)).metadata.map (fun e => e.1))
      = List.range pairs.length ∧
    (∀ j (hj : j < pairs.length),
      lookupMeta (pairs.foldl (fun i p => VectorIndex.add i p.1 p.2)
        (⟨[], [], cfg⟩ : VectorIndex)).metadata j = some (pairs[j].2)) := by
  induction pairs using List.reverseRecOn with
  | nil =>
    refine ⟨rfl, rfl, ?_⟩
    intro j hj
    cases hj
  | append_singleton pairs p ih =>
    obtain ⟨ihv, ihk, ihl⟩ := ih
    rw [List.foldl_append, List.foldl_cons, List.foldl_nil]
    have hlen : (pairs.foldl (fun i p => VectorIndex.add i p.1 p.2)
        (⟨[], [], cfg⟩ : VectorIndex)).vectors.length = pairs.length := by
      rw [ihv, List.length_map]
    have hany : ((pairs.foldl (fun i p => VectorIndex.add i p.1 p.2)
        (⟨[], [], cfg⟩ : VectorIndex)).metadata.any
          (fun e => decide (e.1 = (pairs.foldl (fun i p => VectorIndex.add i p.1 p.2)
            (⟨[], [], cfg⟩ : VectorIndex)).vectors.length))) = false := by
      rw [Bool.eq_false_iff]
      intro hcontra
      rw [List.any_eq_true] at hcontra
      obtain ⟨e, he, hkey⟩ := hcontra
      have hkmem : e.1 ∈ List.range pairs.length := by
        rw [← ihk]
        exact List.mem_map_of_mem _ he
      rw [List.mem_range] at hkmem
      rw [decide_eq_true_eq, hlen] at hkey
      omega
    have hmeta : (VectorIndex.add (pairs.foldl (fun i p => VectorIndex.add i p.1 p.2)
        (⟨[], [], cfg⟩ : VectorIndex)) p.1 p.2).metadata
        = (pairs.foldl (fun i p => VectorIndex.add i p.1 p.2)
            (⟨[], [], cfg⟩ : VectorIndex)).metadata ++ [(pairs.length, p.2)] := by
      show insertMeta _ _ _ = _
      unfold insertMeta
      rw [if_neg (by rw [hany]; exact Bool.false_ne_true), hlen]
    refine ⟨?_, ?_, ?_⟩
    · show (pairs.foldl (fun i p => VectorIndex.add i p.1 p.2)
          (⟨[], [], cfg⟩ : VectorIndex)).vectors ++ [p.1] = _
      rw [ihv, List.map_append]
      rfl
    · rw [hmeta, List.map_append, ihk, List.length_append]
      show List.range pairs.length ++ [pairs.length] = List.range (pairs.length + 1)
      rw [List.range_succ]
    · intro j hj
      rw [List.length_append, List.length_singleton] at hj
      rw [hmeta]
      unfold lookupMeta
      rw [List.find?_append]
      rcases Nat.lt_or_ge j pairs.length with hlt | hge
      · have hold := ihl j hlt
        unfold lookupMeta at hold
        cases hf : (pairs.foldl (fun i p => VectorIndex.add i p.1 p.2)
            (⟨[], [], cfg⟩ : VectorIndex)).metadata.find?
              (fun e => decide (e.1 = j)) with
        | none =>
          rw [hf] at hold
          cases hold
        | some e =>
          rw [hf] at hold
          rw [Option.or_some]
          rw [List.getElem_append_left hlt]
          exact hold
      · have hj2 : j = pairs.length := by omega
        subst hj2
        have hnone : (pairs.foldl (fun i p => VectorIndex.add i p.1 p.2)
            (⟨[], [], cfg⟩ : VectorIndex)).metadata.find?
              (fun e => decide (e.1 = pairs.length)) = none := by
          rw [List.find?_eq_none]
          intro e he
          have hkmem : e.1 ∈ List.range pairs.length := by
            rw [← ihk]
            exact List.mem_map_of_mem _ he
          rw [List.mem_range] at hkmem
          simp only [decide_eq_true_eq]
          omega
        rw [hnone, Option.none_or]
        rw [List.getElem_concat_length _ _ _ rfl]
        simp [List.find?_cons]

/-! ## Supporting development for C9: `EmbeddingIndex::add` maintains the
well-formedness the C9 theorem assumes (per-dimension values sorted,
per-dimension vector ids distinct). -/

/-- The values stored at dimension position `d` (empty when absent). -/
def valuesAt (dims : List DimensionIndex) (d : Nat) : List (ℚ × Nat) :=
  match dims[d]? with
  | some di => di.values
  | none => []

theorem valuesAt_ensureDim (dims : List DimensionIndex) (d d' : Nat) :
    valuesAt (ensureDim dims d) d' = valuesAt dims d' := by
  unfold valuesAt ensureDim
  rcases Nat.lt_or_ge d' dims.length with hlt | hge
  · rw [List.getElem?_append, if_pos hlt]
  · rw [List.getElem?_eq_none hge, List.getElem?_append_right hge,
      List.getElem?_replicate]
    by_cases hin : d' - dims.length < d + 1 - dims.length
    · rw [if_pos hin]
    · rw [if_neg hin]

theorem getElem?_modifyIdx (f : DimensionIndex → DimensionIndex) :
    ∀ (n : Nat) (l : List DimensionIndex) (m : Nat),
      (modifyIdx f n l)[m]? = if m = n then l[n]?.map f else l[m]? := by
  intro n l
  induction l generalizing n with
  | nil =>
    intro m
    simp [modifyIdx]
  | cons a as ih =>
    intro m
    cases n with
    | zero =>
      cases m with
      | zero => simp [modifyIdx]
      | succ m => simp [modifyIdx]
    | succ n =>
      cases m with
      | zero => simp [modifyIdx]
      | succ m =>
        simp only [modifyIdx, List.getElem?_cons_succ]
        rw [ih n m]
        by_cases hm : m = n
        · simp [hm]
        · have hne : ¬ (m + 1 = n + 1) := by omega
          simp [hm, hne]

theorem valuesAt_addValue (dims : List DimensionIndex) (d : Nat) (value : ℚ)
    (vidx : Nat) (d' : Nat) :
    valuesAt (addValue dims d value vidx) d'
      = if d' = d then sortValues (valuesAt dims d ++ [(value, vidx)])
        else valuesAt dims d' := by
  unfold addValue
  by_cases hd : d' = d
  · subst hd
    rw [if_pos rfl]
    unfold valuesAt
    rw [getElem?_modifyIdx, if_pos rfl]
    rcases Nat.lt_or_ge d' dims.length with hlt | hge
    · have h1 : (ensureDim dims d')[d']? = some dims[d'] := by
        unfold ensureDim
        rw [List.getElem?_append, if_pos hlt]
        exact List.getElem?_eq_getElem hlt
      rw [h1, List.getElem?_eq_getElem hlt]
      rfl
    · have h1 : (ensureDim dims d')[d']? = some ⟨d', []⟩ := by
        unfold ensureDim
        rw [List.getElem?_append_right hge, List.getElem?_replicate,
          if_pos (by omega)]
      rw [h1, List.getElem?_eq_none hge]
      rfl
  · rw [if_neg hd]
    unfold valuesAt
    rw [getElem?_modifyIdx, if_neg hd]
    have hens := valuesAt_ensureDim dims d d'
    unfold valuesAt at hens
    exact hens

theorem sortValues_pairwise (vals : List (ℚ × Nat)) :
    List.Pairwise (fun a b : ℚ × Nat => a.1 ≤ b.1) (sortValues vals) := by
  have h := @List.sorted_mergeSort (ℚ × Nat) (fun a b => decide (a.1 ≤ b.1))
    (fun a b c hab hbc => by
      simp only [decide_eq_true_eq] at hab hbc ⊢
      exact le_trans hab hbc)
    (fun a b => by
      rcases le_total a.1 b.1 with h | h <;> simp [h])
    vals
  exact h.imp (fun hab => by simpa using hab)

theorem sortValues_perm (vals : List (ℚ × Nat)) :
    List.Perm (sortValues vals) vals :=
  List.mergeSort_perm vals _

/-- Invariant of the per-dimension indexing fold of `EmbeddingIndex::add`:
indexing the components of a new vector with fresh id `N` into dimension
indices whose stored ids are below `N` keeps every dimension sorted, keeps
its ids distinct, and stores no id above `N`. -/
theorem foldAdd_wf (N : Nat) :
    ∀ (ps : List (Nat × ℚ)) (dims : List DimensionIndex),
      (ps.map (fun p => p.1)).Nodup →
      (∀ d, List.Pairwise (fun a b : ℚ × Nat => a.1 ≤ b.1) (valuesAt dims d) ∧
            ((valuesAt dims d).map (fun e => e.2)).Nodup ∧
            (∀ e ∈ valuesAt dims d, e.2 ≤ N) ∧
            (d ∈ ps.map (fun p => p.1) → ∀ e ∈ valuesAt dims d, e.2 < N)) →
      ∀ d, List.Pairwise (fun a b : ℚ × Nat => a.1 ≤ b.1)
            (valuesAt (ps.foldl (fun dims p => addValue dims p.1 p.2 N) dims) d) ∧
          ((valuesAt (ps.foldl (fun dims p => addValue dims p.1 p.2 N) dims) d).map
            (fun e => e.2)).Nodup ∧
          (∀ e ∈ valuesAt (ps.foldl (fun dims p => addValue dims p.1 p.2 N) dims) d,
            e.2 ≤ N) := by
  intro ps
  induction ps with
  | nil =>
    intro dims _ hinv d
    exact ⟨(hinv d).1, (hinv d).2.1, (hinv d).2.2.1⟩
  | cons p rest ih =>
    intro dims hnd hinv
    have hndr : (rest.map (fun p => p.1)).Nodup := by
      simp only [List.map_cons, List.nodup_cons] at hnd
      exact hnd.2
    have hp1notin : p.1 ∉ rest.map (fun p => p.1) := by
      simp only [List.map_cons, List.nodup_cons] at hnd
      exact hnd.1
    simp only [List.foldl_cons]
    apply ih (addValue dims p.1 p.2 N) hndr
    intro d
    rw [valuesAt_addValue]
    by_cases hd : d = p.1
    · subst hd
      rw [if_pos rfl]
      obtain ⟨hpw, hnd2, hle, hlt⟩ := hinv p.1
      have hltp : ∀ e ∈ valuesAt dims p.1, e.2 < N :=
        hlt (by rw [List.map_cons]; exact List.mem_cons_self _ _)
      refine ⟨sortValues_pairwise _, ?_, ?_, ?_⟩
      · have hpermmap := (sortValues_perm (valuesAt dims p.1 ++ [(p.2, N)])).map
          (fun e : ℚ × Nat => e.2)
        rw [hpermmap.nodup_iff, List.map_append]
        refine List.Nodup.append hnd2 (by simp) ?_
        intro a ha hb
        have hb1 : a = N := by simpa using hb
        obtain ⟨e, he, hea⟩ := List.mem_map.mp ha
        have := hltp e he
        omega
      · intro e he
        have hmem : e ∈ valuesAt dims p.1 ++ [(p.2, N)] :=
          (sortValues_perm _).subset he
        rcases List.mem_append.mp hmem with h1 | h1
        · exact le_of_lt (hltp e h1)
        · have he1 : e = (p.2, N) := by simpa using h1
          rw [he1]
      · intro hmem
        exact absurd hmem hp1notin
    · rw [if_neg hd]
      obtain ⟨hpw, hnd2, hle, hlt⟩ := hinv d
      refine ⟨hpw, hnd2, hle, ?_⟩
      intro hmem
      exact hlt (by rw [List.map_cons]; exact List.mem_cons_of_mem _ hmem)

/-- Supporting theorem for C9: a fresh `EmbeddingIndex` is well-formed and
`EmbeddingIndex::add` preserves well-formedness (each dimension's values
sorted by value, each dimension's stored vector ids distinct and below the
number of stored vectors) — so the hypotheses of the C9 theorem hold in
every state reachable by `add` calls. -/
theorem add_preserves_wellFormed (idx : EmbeddingIndex) (v : List ℚ) (chunk : TextChunk)
    (hw : ∀ di ∈ idx.dimension_indices,
      List.Pairwise (fun a b : ℚ × Nat => a.1 ≤ b.1) di.values ∧
      (di.values.map (fun e => e.2)).Nodup ∧
      (∀ e ∈ di.values, e.2 < idx.vectors.length)) :
    ∀ di ∈ (idx.add v chunk).dimension_indices,
      List.Pairwise (fun a b : ℚ × Nat => a.1 ≤ b.1) di.values ∧
      (di.values.map (fun e => e.2)).Nodup ∧
      (∀ e ∈ di.values, e.2 < (idx.add v chunk).vectors.length) := by
  intro di hdi
  obtain ⟨d, hd, hdieq⟩ := List.getElem_of_mem hdi
  have hval : valuesAt (idx.add v chunk).dimension_indices d = di.values := by
    unfold valuesAt
    rw [List.getElem?_eq_getElem hd, hdieq]
  have hinv : ∀ d2,
      List.Pairwise (fun a b : ℚ × Nat => a.1 ≤ b.1)
        (valuesAt idx.dimension_indices d2) ∧
      ((valuesAt idx.dimension_indices d2).map (fun e => e.2)).Nodup ∧
      (∀ e ∈ valuesAt idx.dimension_indices d2, e.2 ≤ idx.vectors.length) ∧
      (d2 ∈ ((v.take idx.config.num_dimensions_to_index).enum).map (fun p => p.1) →
        ∀ e ∈ valuesAt idx.dimension_indices d2, e.2 < idx.vectors.length) := by
    intro d2
    unfold valuesAt
    cases hg : idx.dimension_indices[d2]? with
    | none => exact ⟨List.Pairwise.nil, List.nodup_nil, by simp, by simp⟩
    | some di2 =>
      obtain ⟨h1, h2, h3⟩ := hw di2 (List.getElem?_mem hg)
      exact ⟨h1, h2, fun e he => le_of_lt (h3 e he), fun _ e he => h3 e he⟩
  have hnodup : (((v.take idx.config.num_dimensions_to_index).enum).map
      (fun p => p.1)).Nodup := by
    have henum : ((v.take idx.config.num_dimensions_to_index).enum).map
        (fun p : Nat × ℚ => p.1)
        = List.range (v.take idx.config.num_dimensions_to_index).length := by
      simp only [← List.enum_map_fst (v.take idx.config.num_dimensions_to_index)]
    rw [henum]
    exact List.nodup_range _
  have hmain := foldAdd_wf idx.vectors.length
    ((v.take idx.config.num_dimensions_to_index).enum) idx.dimension_indices
    hnodup hinv d
  rw [show valuesAt
      (((v.take idx.config.num_dimensions_to_index).enum).foldl
        (fun dims p => addValue dims p.1 p.2 idx.vectors.length)
        idx.dimension_indices) d = di.values from hval] at hmain
  have hlen : (idx.add v chunk).vectors.length = idx.vectors.length + 1 := by
    show (idx.vectors ++ [(v, chunk)]).length = _
    rw [List.length_append]
    rfl
  refine ⟨hmain.1, hmain.2.1, ?_⟩
  intro e he
  have := hmain.2.2 e he
  omega

end DeepTracking
